import Mathlib

set_option maxRecDepth 200000
set_option maxHeartbeats 1000000

/-!
# Verification of `simplify-flat-array`

A shallow embedding of the polyline-simplification library
`simplify-flat-array` (`src/index.js`), together with proofs and refutations
of the specified properties.

Modelling conventions:

* JavaScript numbers are modelled as exact rationals (`ℚ`); this is the usual
  idealisation of floating-point arithmetic by real arithmetic, restricted to
  the rational inputs that actually occur.
* A flat even-length coordinate array `[x1,y1, x2,y2, ...]` is modelled as an
  `Array Pt` of coordinate pairs; the source only ever reads and writes whole
  `x,y` pairs (at even flat offsets), so flat index `i` corresponds to pair
  index `i / 2` throughout.  In particular the source's flat range bound
  `points.length < 6` becomes `pts.size < 3`, the flat last offset `len - 2`
  becomes pair index `size - 1`, and the flat interior scan
  `i = first + 2; i < last; i += 2` becomes `i = first + 1; i < last; i += 1`.
* `Math.hypot(a, b) = √(a² + b²)` is irrational in general; the embedding
  carries the *square* of every distance (exact over `ℚ`) and performs the
  source's comparisons through order-reflecting translations:
  `dist > maxDist ↔ distSq > maxDistSq` and `dist > tolerance ↔`
  `ltSqrt tolerance distSq`.  The bridge lemmas `ltSqrt_iff` and
  `perpendicularDistance_sq` below prove these translations exact.
* The source's recursion `simplifyDP` does not terminate when
  `tolerance < 0` (the guard `maxDist > tolerance` then fires with the
  never-assigned initial `index = 0`, recursing on a non-shrinking range);
  the embedding returns `[]` on that unreachable-for-`tolerance ≥ 0` branch,
  and every theorem about it assumes `0 ≤ tolerance`.
* Mutation of the `result` array by `push` is modelled by returning the list
  of pushed points; in-place mutation of the `areas`/`prev`/`next` arrays of
  the Visvalingam engine is modelled by explicit state passing over functions
  `ℕ → _` with `Function.update` (all indices used are `< n`).
-/

/-- A 2D point: one `x,y` pair of the flat coordinate array. -/
abbrev Pt : Type := ℚ × ℚ

/-- Sum of squares, the square of `Math.hypot a b`. -/
def hypotSq (a b : ℚ) : ℚ := a * a + b * b

/-- Square of the source's `perpendicularDistance(px, py, x1, y1, x2, y2)`:
distance of `(px,py)` to the segment from `(x1,y1)` to `(x2,y2)`, with the projection
parameter clamped to `[0,1]`, degenerating to point distance for a
zero-length segment.  The source returns `Math.hypot(...)`; we carry its
square, which is exact over `ℚ`. -/
def perpendicularDistanceSq (px py x1 y1 x2 y2 : ℚ) : ℚ :=
  let dx := x2 - x1
  let dy := y2 - y1
  if dx = 0 ∧ dy = 0 then
    hypotSq (px - x1) (py - y1)
  else
    let t := ((px - x1) * dx + (py - y1) * dy) / (dx * dx + dy * dy)
    let tc := max 0 (min 1 t)
    let projX := x1 + tc * dx
    let projY := y1 + tc * dy
    hypotSq (px - projX) (py - projY)

/-- The value the source's `perpendicularDistance` actually returns:
`Math.hypot`, i.e. the square root of `perpendicularDistanceSq`. -/
noncomputable def perpendicularDistance (px py x1 y1 x2 y2 : ℚ) : ℝ :=
  Real.sqrt (perpendicularDistanceSq px py x1 y1 x2 y2)

/-- Decides `t < √q` (for `0 ≤ q`) exactly over `ℚ`:
either `t` is negative, or `t² < q`. -/
def ltSqrt (t q : ℚ) : Bool := t < 0 || t * t < q

/-- The source's `triangleArea(x1, y1, x2, y2, x3, y3)`. -/
def triangleArea (x1 y1 x2 y2 x3 y3 : ℚ) : ℚ :=
  |(x1 * (y2 - y3) + x2 * (y3 - y1) + x3 * (y1 - y2)) / 2|

/-! ## Douglas-Peucker engine -/

/-- The interior scan of `simplifyDP`, the loop
`for (i = first + 2; i < last; i += 2)` in pair indices: `cnt` is the number
of loop iterations left (`l - i`), and the accumulator tracks the maximum
squared deviation from the chord through `(x1,y1)` and `(x2,y2)` together
with the first index attaining it (strict `>` comparison, as in the source's
`dist > maxDist`). -/
def scanMaxGo (pts : Array Pt) (x1 y1 x2 y2 : ℚ) :
    ℕ → ℕ → ℚ → ℕ → ℚ × ℕ
  | _, 0, maxDistSq, index => (maxDistSq, index)
  | i, cnt + 1, maxDistSq, index =>
      let p := pts.getD i (0, 0)
      let d := perpendicularDistanceSq p.1 p.2 x1 y1 x2 y2
      if maxDistSq < d then
        scanMaxGo pts x1 y1 x2 y2 (i + 1) cnt d i
      else
        scanMaxGo pts x1 y1 x2 y2 (i + 1) cnt maxDistSq index

/-- Computes the `(maxDist, index)` pair of `simplifyDP`'s scan over the
range `[first, l]`: the squared maximal deviation of the interior points
`first+1, …, l-1` from the chord `pts[first]`–`pts[l]`, and the first index
attaining it (`(0, 0)` when the range has no interior point of positive
deviation). -/
def dpSplit (pts : Array Pt) (first l : ℕ) : ℚ × ℕ :=
  scanMaxGo pts (pts.getD first (0, 0)).1 (pts.getD first (0, 0)).2
    (pts.getD l (0, 0)).1 (pts.getD l (0, 0)).2 (first + 1) (l - (first + 1)) 0 0

/-- Squared deviation of interior point `j` from the chord of the range
`[first, l]`, exactly the quantity `simplifyDP`'s scan compares. -/
def chordDistSq (pts : Array Pt) (first l j : ℕ) : ℚ :=
  perpendicularDistanceSq (pts.getD j (0, 0)).1 (pts.getD j (0, 0)).2
    (pts.getD first (0, 0)).1 (pts.getD first (0, 0)).2
    (pts.getD l (0, 0)).1 (pts.getD l (0, 0)).2

/-- The recursive core `simplifyDP(points, first, last, tolerance, result)`,
with `fuel` bounding the recursion depth; the list returned is the sequence
of points pushed onto `result`.  Each split index lies strictly inside the
range, so both sub-ranges are strictly shorter and `fuel = l - first`
(supplied by `simplifyDP`) always suffices; `simplifyDPGo_congr` proves the
exact amount immaterial.  The branch returning `[]` under the negated
`first < index ∧ index < l` guard is where the source recurses forever; it is
unreachable when `0 ≤ tolerance`. -/
def simplifyDPGo (pts : Array Pt) (tolerance : ℚ) : ℕ → ℕ → ℕ → List Pt
  | 0, _, _ => []
  | fuel + 1, first, l =>
      if ltSqrt tolerance (dpSplit pts first l).1 then
        if first < (dpSplit pts first l).2 ∧ (dpSplit pts first l).2 < l then
          simplifyDPGo pts tolerance fuel first (dpSplit pts first l).2
            ++ pts.getD (dpSplit pts first l).2 (0, 0)
            :: simplifyDPGo pts tolerance fuel (dpSplit pts first l).2 l
        else []
      else []

/-- `simplifyDP(points, first, last, tolerance, result)` as the source calls
it. -/
def simplifyDP (pts : Array Pt) (first l : ℕ) (tolerance : ℚ) : List Pt :=
  simplifyDPGo pts tolerance (l - first) first l

/-- `simplifyDouglasPeucker(points, tolerance, highQuality)`.  Exactly as in
the source, the `highQuality` parameter is accepted and never read. -/
def simplifyDouglasPeucker (pts : Array Pt) (tolerance : ℚ)
    (highQuality : Bool) : List Pt :=
  if pts.size < 3 then pts.toList
  else
    let result := pts.getD 0 (0, 0) :: simplifyDP pts 0 (pts.size - 1) tolerance
    let lastPt := pts.getD (pts.size - 1) (0, 0)
    if result.getLastD (0, 0) ≠ lastPt then result ++ [lastPt]
    else result

/-! ## Dispatcher -/

/-- The `options.algorithm` string: `'douglas-peucker'`, `'visvalingam'`, or
any other (unrecognized) value. -/
inductive Algorithm : Type
  | douglasPeucker
  | visvalingam
  | unrecognized
deriving DecidableEq

/-- The `options` object of `simplify`.  `algorithm = none` models an absent
(or falsy) `options.algorithm`.  `useTypedArray` selects the `Float32Array`
reshaping of the output, which the specification places out of scope
(§1: an external collaborator); the dispatcher model therefore returns the
untyped result in both cases. -/
structure SimplifyOptions : Type where
  algorithm : Option Algorithm := none
  targetPoints : Option ℤ := none
  useTypedArray : Bool := false
  closed : Bool := false

/-! ## Visvalingam-Whyatt engine

The JavaScript engine keeps three length-`n` arrays, mutated in place:
`areas[i]` holds `Infinity` (endpoint), a finite effective area, or `null`
(point removed); `prev[i]`/`next[i]` hold an index or `null`.  The embedding
models them as total functions out of `ℕ` (all reads are at indices `< n`):
an `areas` value is `Option (WithTop ℚ)` with `none` for `null` and
`some ⊤` for `Infinity`, and a `prev`/`next` value is `Option ℕ`. -/

/-- The mutable state of `simplifyVisvalingam`'s reduction loop. -/
structure VWState : Type where
  areas : ℕ → Option (WithTop ℚ)
  prev : ℕ → Option ℕ
  next : ℕ → Option ℕ
  remaining : ℕ

/-- Initialization of `simplifyVisvalingam` for `n = points.length >> 1`
points: linked list `0 ↔ 1 ↔ ⋯ ↔ n-1`, interior areas from the neighbor
triangles, endpoints at `Infinity`; when `closed && n > 3`, the wrap-around
triangle areas for the endpoints and the cyclic links `n-1 → 0`, `0 ← n-1`. -/
def vwInit (pts : Array Pt) (n : ℕ) (closed : Bool) : VWState :=
  let areas : ℕ → Option (WithTop ℚ) := fun i =>
    if i < n then
      if 1 ≤ i ∧ i + 1 < n then
        some ((triangleArea (pts.getD (i - 1) (0, 0)).1 (pts.getD (i - 1) (0, 0)).2
          (pts.getD i (0, 0)).1 (pts.getD i (0, 0)).2
          (pts.getD (i + 1) (0, 0)).1 (pts.getD (i + 1) (0, 0)).2 : ℚ) : WithTop ℚ)
      else some ⊤
    else none
  let prev : ℕ → Option ℕ := fun i => if i = 0 ∨ n ≤ i then none else some (i - 1)
  let next : ℕ → Option ℕ := fun i => if i + 1 < n then some (i + 1) else none
  if closed ∧ 3 < n then
    { areas := Function.update (Function.update areas 0
        (some ((triangleArea (pts.getD (n - 1) (0, 0)).1 (pts.getD (n - 1) (0, 0)).2
          (pts.getD 0 (0, 0)).1 (pts.getD 0 (0, 0)).2
          (pts.getD 1 (0, 0)).1 (pts.getD 1 (0, 0)).2 : ℚ) : WithTop ℚ))) (n - 1)
        (some ((triangleArea (pts.getD (n - 2) (0, 0)).1 (pts.getD (n - 2) (0, 0)).2
          (pts.getD (n - 1) (0, 0)).1 (pts.getD (n - 1) (0, 0)).2
          (pts.getD 0 (0, 0)).1 (pts.getD 0 (0, 0)).2 : ℚ) : WithTop ℚ))
      prev := Function.update prev 0 (some (n - 1))
      next := Function.update next (n - 1) (some 0)
      remaining := n }
  else
    { areas := areas, prev := prev, next := next, remaining := n }

/-- The body of the linear minimum scan `for (i = 0; i < n; i++)` of the
reduction loop: `cnt` iterations left starting at index `i`, recording any
non-retired area strictly below the current minimum (strict `<`, so the
lowest index wins ties). -/
def vwFindMinGo (areas : ℕ → Option (WithTop ℚ)) :
    ℕ → ℕ → WithTop ℚ → Option ℕ → WithTop ℚ × Option ℕ
  | _, 0, minArea, minIdx => (minArea, minIdx)
  | i, cnt + 1, minArea, minIdx =>
      match areas i with
      | some a =>
          if a < minArea then vwFindMinGo areas (i + 1) cnt a (some i)
          else vwFindMinGo areas (i + 1) cnt minArea minIdx
      | none => vwFindMinGo areas (i + 1) cnt minArea minIdx

/-- The full minimum scan, from `(minArea, minIdx) = (Infinity, -1)`
(modelled `(⊤, none)`). -/
def vwFindMin (areas : ℕ → Option (WithTop ℚ)) (n : ℕ) : WithTop ℚ × Option ℕ :=
  vwFindMinGo areas 0 n ⊤ none

/-- One splice of the reduction loop, given the index `minIdx` to remove and
its live neighbors `pPrev`, `pNext`: relink across `minIdx`, retire its area,
decrement `remaining`, and recompute the areas of the two affected neighbors
(in source order, skipping a neighbor that is a protected endpoint or
retired). -/
def vwRemove (pts : Array Pt) (n : ℕ) (st : VWState) (minIdx pPrev pNext : ℕ) :
    VWState :=
  let next1 := Function.update st.next pPrev (some pNext)
  let prev1 := Function.update st.prev pNext (some pPrev)
  let areas1 := Function.update st.areas minIdx none
  let areas2 :=
    if areas1 pPrev ≠ none ∧ pPrev ≠ 0 then
      Function.update areas1 pPrev
        (some ((triangleArea (pts.getD ((prev1 pPrev).getD 0) (0, 0)).1
          (pts.getD ((prev1 pPrev).getD 0) (0, 0)).2
          (pts.getD pPrev (0, 0)).1 (pts.getD pPrev (0, 0)).2
          (pts.getD pNext (0, 0)).1 (pts.getD pNext (0, 0)).2 : ℚ) : WithTop ℚ))
    else areas1
  let areas3 :=
    if areas2 pNext ≠ none ∧ pNext ≠ n - 1 then
      Function.update areas2 pNext
        (some ((triangleArea (pts.getD pPrev (0, 0)).1 (pts.getD pPrev (0, 0)).2
          (pts.getD pNext (0, 0)).1 (pts.getD pNext (0, 0)).2
          (pts.getD ((next1 pNext).getD 0) (0, 0)).1
          (pts.getD ((next1 pNext).getD 0) (0, 0)).2 : ℚ) : WithTop ℚ))
    else areas2
  { areas := areas3, prev := prev1, next := next1, remaining := st.remaining - 1 }

/-- Loop-condition of the reduction loop:
`remaining > 3 && (targetPoints === null || remaining > targetPoints)`. -/
def vwCond (targetPoints : Option ℤ) (remaining : ℕ) : Prop :=
  3 < remaining ∧ (targetPoints = none ∨ ∀ k ∈ targetPoints, k < (remaining : ℤ))

instance (targetPoints : Option ℤ) (remaining : ℕ) :
    Decidable (vwCond targetPoints remaining) := by
  unfold vwCond
  infer_instance

/-- The reduction loop of `simplifyVisvalingam`, with each `break` modelled by
returning the current state, and `fuel` bounding the number of iterations.
Every iteration decrements `remaining`, which the loop condition keeps
above 3, so `fuel = remaining` at entry (supplied by `vwLoop`) always
suffices. -/
def vwLoopGo (pts : Array Pt) (n : ℕ) (targetPoints : Option ℤ)
    (tolerance : ℚ) : ℕ → VWState → VWState
  | 0, st => st
  | fuel + 1, st =>
      if vwCond targetPoints st.remaining then
        let m := vwFindMin st.areas n
        if (tolerance : WithTop ℚ) < m.1 ∧ targetPoints = none then st
        else
          match m.2 with
          | none => st
          | some minIdx =>
            if minIdx = 0 ∨ minIdx = n - 1 then st
            else
              match st.prev minIdx, st.next minIdx with
              | some pPrev, some pNext =>
                  vwLoopGo pts n targetPoints tolerance fuel
                    (vwRemove pts n st minIdx pPrev pNext)
              | some _, none => st
              | none, _ => st
      else st

/-- The reduction loop as entered by `simplifyVisvalingam`. -/
def vwLoop (pts : Array Pt) (n : ℕ) (targetPoints : Option ℤ) (tolerance : ℚ)
    (st : VWState) : VWState :=
  vwLoopGo pts n targetPoints tolerance st.remaining st

/-- Output construction: from `current = 0`, emit the point, follow the
`next` link, stop on `null` (open end) or on returning to `0` (closed ring).
The source's `do … while` loop is modelled with fuel; `vwWalk_spec` below
shows fuel `n` never runs out on states reachable from an open-path run. -/
def vwWalk (pts : Array Pt) (next : ℕ → Option ℕ) (fuel current : ℕ) : List Pt :=
  match fuel with
  | 0 => []
  | fuel + 1 =>
      pts.getD current (0, 0) ::
        (match next current with
         | none => []
         | some c => if c = 0 then [] else vwWalk pts next fuel c)

/-- `simplifyVisvalingam(points, { targetPoints, tolerance, closed })`. -/
def simplifyVisvalingam (pts : Array Pt) (targetPoints : Option ℤ)
    (tolerance : ℚ) (closed : Bool) : List Pt :=
  let n := pts.size
  if n < 3 then pts.toList
  else
    let st := vwLoop pts n targetPoints tolerance (vwInit pts n closed)
    let result := vwWalk pts st.next n 0
    if closed ∧ 2 ≤ result.length then result ++ [result.getD 0 (0, 0)]
    else result

/-! ## Dispatcher (continued) -/

/-- `simplify(points, tolerance = 1, highQuality = false, options = {})`.
A call with at most three positional arguments is modelled by
`options = none` (the source's `arguments.length <= 3` classic-call test);
`options = some o` with `o.algorithm = none` models a supplied options object
without a (truthy) `algorithm` property.  The out-of-scope `useTypedArray`
reshaping is the identity here (see `SimplifyOptions`). -/
def simplify (pts : Array Pt) (tolerance : ℚ := 1) (highQuality : Bool := false)
    (options : Option SimplifyOptions := none) : List Pt :=
  if pts.size < 3 then pts.toList
  else
    let opts := options.getD {}
    let isClassicCall := options.isNone || opts.algorithm.isNone
    if isClassicCall || opts.algorithm = some Algorithm.douglasPeucker then
      simplifyDouglasPeucker pts tolerance highQuality
    else if opts.algorithm = some Algorithm.visvalingam then
      simplifyVisvalingam pts opts.targetPoints tolerance opts.closed
    else
      simplifyDouglasPeucker pts tolerance highQuality


/-! ## Definitions supporting individual claims -/

/-- Modelled from the spec (§4.1): `squaredDistance(p1, p2)`, the sum of
squared coordinate differences.  No such function exists in `src/index.js`;
the spec names it as the degenerate case of `squaredDistanceToSegment`. -/
def squaredDistance (p1 p2 : Pt) : ℚ :=
  (p1.1 - p2.1) * (p1.1 - p2.1) + (p1.2 - p2.2) * (p1.2 - p2.2)

/-- Modelled from the spec (§4.1): `squaredDistanceToSegment(p, a, b)`
projects `p` onto the infinite line through `a, b`, clamps the projection
parameter to `[0,1]`, and returns the *squared* distance from `p` to the
clamped projection; when `a == b` it degenerates to `squaredDistance p a`.
This is the value the claim says the deviation primitive returns. -/
def squaredDistanceToSegmentSpec (p a b : Pt) : ℚ :=
  if a = b then squaredDistance p a
  else
    let t := ((p.1 - a.1) * (b.1 - a.1) + (p.2 - a.2) * (b.2 - a.2)) /
      ((b.1 - a.1) * (b.1 - a.1) + (b.2 - a.2) * (b.2 - a.2))
    let tc := max 0 (min 1 t)
    squaredDistance p (a.1 + tc * (b.1 - a.1), a.2 + tc * (b.2 - a.2))

/-- States that every point of `pts` lying (by index) strictly between two
other points has strictly positive squared deviation from the chord those
two points span.  Under this hypothesis `tolerance = 0` removes nothing; a
collinear triple violates it (and is removed, see `c7_counterexample`). -/
def OffChord (pts : Array Pt) : Prop :=
  ∀ l, l < pts.size → ∀ m, m < l → ∀ f, f < m →
    0 < perpendicularDistanceSq (pts.getD m (0, 0)).1 (pts.getD m (0, 0)).2
      (pts.getD f (0, 0)).1 (pts.getD f (0, 0)).2
      (pts.getD l (0, 0)).1 (pts.getD l (0, 0)).2

instance (pts : Array Pt) : Decidable (OffChord pts) := by
  unfold OffChord
  infer_instance

/-- The 100-point input polyline of the repository's own test
(`unnamed/part_000`); the specification misdescribes it as 64 points. -/
def c1Input : Array Pt :=
  #[(224.55, 250.15), (226.91, 244.19), (233.31, 241.45), (234.98,
    236.06), (244.21, 232.76), (262.59, 215.31), (267.76, 213.81), (273.57,
    201.84), (273.12, 192.16), (277.62, 189.03), (280.36, 181.41), (286.51,
    177.74), (292.41, 159.37), (296.91, 155.64), (314.95, 151.37), (319.75,
    145.16), (330.33, 137.57), (341.48, 139.96), (369.98, 137.89), (387.39,
    142.51), (391.28, 139.39), (409.52, 141.14), (414.82, 139.75), (427.72,
    127.3), (439.6, 119.74), (474.93, 107.87), (486.51, 106.75), (489.2,
    109.45), (493.79, 108.63), (504.74, 119.66), (512.96, 122.35), (518.63,
    120.89), (524.09, 126.88), (529.57, 127.86), (534.21, 140.93), (539.27,
    147.24), (567.69, 148.91), (575.25, 157.26), (580.62, 158.15), (601.53,
    156.85), (617.74, 159.86), (622.0, 167.04), (629.55, 194.6), (638.9,
    195.61), (641.26, 200.81), (651.77, 204.56), (671.55, 222.55), (683.68,
    217.45), (695.25, 219.15), (700.64, 217.98), (703.12, 214.36), (712.26,
    215.87), (721.49, 212.81), (727.81, 213.36), (729.98, 208.73), (735.32,
    208.2), (739.94, 204.77), (769.98, 208.42), (779.6, 216.87), (784.2,
    218.16), (800.24, 214.62), (810.53, 219.73), (817.19, 226.82), (820.77,
    236.17), (827.23, 236.16), (829.89, 239.89), (851.0, 248.94), (859.88,
    255.49), (865.21, 268.53), (857.95, 280.3), (865.48, 291.45), (866.81,
    298.66), (864.68, 302.71), (867.79, 306.17), (859.87, 311.37), (860.08,
    314.35), (858.29, 314.94), (858.1, 327.6), (854.54, 335.4), (860.92,
    343.0), (856.43, 350.15), (851.42, 352.96), (849.84, 359.59), (854.56,
    365.53), (849.74, 370.38), (844.09, 371.89), (844.75, 380.44), (841.52,
    383.67), (839.57, 390.4), (845.59, 399.05), (848.4, 407.55), (843.71,
    411.3), (844.09, 419.88), (839.51, 432.76), (841.33, 441.04), (847.62,
    449.22), (847.16, 458.44), (851.38, 462.79), (853.97, 471.15), (866.36,
    480.77)]

/-- The expected output asserted by the repository's own test for
`simplify(points, 5)` (33 points; the specification says 35).  It matches the
Douglas-Peucker result *after* the radial-distance pre-pass of the upstream
`simplify-js` library from which the test was copied. -/
def c1Expected : List Pt :=
  [(224.55, 250.15), (267.76, 213.81), (296.91, 155.64), (330.33, 137.57),
    (409.52, 141.14), (439.6, 119.74), (486.51, 106.75), (529.57, 127.86),
    (539.27, 147.24), (617.74, 159.86), (629.55, 194.6), (671.55, 222.55),
    (727.81, 213.36), (739.94, 204.77), (769.98, 208.42), (779.6, 216.87),
    (800.24, 214.62), (820.77, 236.17), (859.88, 255.49), (865.21, 268.53),
    (857.95, 280.3), (867.79, 306.17), (859.87, 311.37), (854.54, 335.4),
    (860.92, 343.0), (849.84, 359.59), (854.56, 365.53), (844.09, 371.89),
    (839.57, 390.4), (848.4, 407.55), (839.51, 432.76), (853.97, 471.15),
    (866.36, 480.77)]

/-- What the code actually returns for `simplify(points, 5)` on the test
input: also 33 points, but differing from `c1Expected` at point positions 15
and 22 (the engine never runs the radial pre-pass). -/
def c1Actual : List Pt :=
  [(224.55, 250.15), (267.76, 213.81), (296.91, 155.64), (330.33, 137.57),
    (409.52, 141.14), (439.6, 119.74), (486.51, 106.75), (529.57, 127.86),
    (539.27, 147.24), (617.74, 159.86), (629.55, 194.6), (671.55, 222.55),
    (727.81, 213.36), (739.94, 204.77), (769.98, 208.42), (784.2, 218.16),
    (800.24, 214.62), (820.77, 236.17), (859.88, 255.49), (865.21, 268.53),
    (857.95, 280.3), (867.79, 306.17), (858.29, 314.94), (854.54, 335.4),
    (860.92, 343.0), (849.84, 359.59), (854.56, 365.53), (844.09, 371.89),
    (839.57, 390.4), (848.4, 407.55), (839.51, 432.76), (853.97, 471.15),
    (866.36, 480.77)]

/-- A closed 4-point ring whose minimum effective area sits at index 0:
points 3, 0, 1 are collinear, so the wrap-around triangle of index 0 has
area 0, strictly below every other effective area. -/
def c5ClosedInput : Array Pt := #[(1, 0), (2, 0), (2, 1), (0, 0)]

/-- A collinear 3-point polyline: the middle point has deviation exactly 0,
so Douglas-Peucker removes it even at `tolerance = 0`. -/
def c7Collinear : Array Pt := #[(0, 0), (1, 0), (2, 0)]

/-- A single-point input (one coordinate pair, two numeric values). -/
def c10Single : Array Pt := #[(1, 2)]

/-! ## Abstractions for verifying the Visvalingam reduction loop -/

/-- Indices of live (not yet retired) nodes, in ascending order; a node is
live while its `areas` entry is not `null`. -/
def liveIdx (n : ℕ) (areas : ℕ → Option (WithTop ℚ)) : List ℕ :=
  (List.range n).filter (fun i => (areas i).isSome)

/-- The smallest live index above `i` (what a well-formed `next` link must
point to). -/
def nextLive (n : ℕ) (areas : ℕ → Option (WithTop ℚ)) (i : ℕ) : Option ℕ :=
  ((List.range n).filter (fun j => (areas j).isSome && decide (i < j))).head?

/-- The largest live index below `i` (what a well-formed `prev` link must
point to). -/
def prevLive (n : ℕ) (areas : ℕ → Option (WithTop ℚ)) (i : ℕ) : Option ℕ :=
  ((List.range n).filter (fun j => (areas j).isSome && decide (j < i))).getLast?

/-- Invariant of the open-path (`closed = false`) reduction loop: endpoints
are live at `Infinity`, nothing exists beyond `n`, live interior areas are
finite, the `prev`/`next` links of live nodes point to the neighboring live
nodes, and `remaining` counts the live nodes. -/
structure VWInv (n : ℕ) (st : VWState) : Prop where
  area0 : st.areas 0 = some ⊤
  areaLast : st.areas (n - 1) = some ⊤
  areaHigh : ∀ i, n ≤ i → st.areas i = none
  areaFin : ∀ i, 0 < i → i < n - 1 → (st.areas i).isSome = true →
    ∃ q : ℚ, st.areas i = some (q : WithTop ℚ)
  nextEq : ∀ i, i < n → (st.areas i).isSome = true →
    st.next i = nextLive n st.areas i
  prevEq : ∀ i, i < n → (st.areas i).isSome = true →
    st.prev i = prevLive n st.areas i
  remEq : st.remaining = (liveIdx n st.areas).length

/-- The live indices from position `c` on (ascending): what the output walk
of `simplifyVisvalingam` visits when started at a live node `c`. -/
def liveFrom (n : ℕ) (areas : ℕ → Option (WithTop ℚ)) (c : ℕ) : List ℕ :=
  (List.range n).filter (fun i => (areas i).isSome && decide (c ≤ i))

/-! ## Basic lemmas about the geometry primitives -/

theorem hypotSq_nonneg (a b : ℚ) : 0 ≤ hypotSq a b := by
  unfold hypotSq
  nlinarith [mul_self_nonneg a, mul_self_nonneg b]

theorem perpendicularDistanceSq_nonneg (px py x1 y1 x2 y2 : ℚ) :
    0 ≤ perpendicularDistanceSq px py x1 y1 x2 y2 := by
  simp only [perpendicularDistanceSq]
  split <;> apply hypotSq_nonneg

/-- The comparison `tolerance < dist` performed by the source (over real
distances) is exactly what `ltSqrt` decides over the squares. -/
theorem ltSqrt_iff (t q : ℚ) (hq : 0 ≤ q) :
    ltSqrt t q = true ↔ (t : ℝ) < Real.sqrt (q : ℝ) := by
  have hq' : (0 : ℝ) ≤ (q : ℝ) := by exact_mod_cast hq
  unfold ltSqrt
  rw [Bool.or_eq_true, decide_eq_true_eq, decide_eq_true_eq]
  constructor
  · rintro (ht | htq)
    · have h0 : (t : ℝ) < 0 := by exact_mod_cast ht
      exact lt_of_lt_of_le h0 (Real.sqrt_nonneg _)
    · rcases lt_or_le t 0 with ht | ht
      · have h0 : (t : ℝ) < 0 := by exact_mod_cast ht
        exact lt_of_lt_of_le h0 (Real.sqrt_nonneg _)
      · have h1 : (t : ℝ) * (t : ℝ) < (q : ℝ) := by exact_mod_cast htq
        have ht' : (0 : ℝ) ≤ (t : ℝ) := by exact_mod_cast ht
        nlinarith [Real.sq_sqrt hq', Real.sqrt_nonneg (q : ℝ)]
  · intro h
    rcases lt_or_le t 0 with ht | ht
    · exact Or.inl ht
    · refine Or.inr ?_
      have ht' : (0 : ℝ) ≤ (t : ℝ) := by exact_mod_cast ht
      have h1 : (t : ℝ) * (t : ℝ) < (q : ℝ) := by
        nlinarith [Real.sq_sqrt hq', Real.sqrt_nonneg (q : ℝ)]
      exact_mod_cast h1

/-- Comparing two of the source's real distances is comparing their squares. -/
theorem dist_lt_dist_iff_sq (p q : ℚ) (hp : 0 ≤ p) :
    Real.sqrt (p : ℝ) < Real.sqrt (q : ℝ) ↔ p < q := by
  rw [Real.sqrt_lt_sqrt_iff (by exact_mod_cast hp)]
  exact ⟨fun h => by exact_mod_cast h, fun h => by exact_mod_cast h⟩


/-! ## Fuel congruence and unfolding for the Douglas-Peucker recursion -/

theorem simplifyDPGo_nil (pts : Array Pt) (tol : ℚ) (first l : ℕ)
    (h : l ≤ first) : ∀ fuel, simplifyDPGo pts tol fuel first l = [] := by
  intro fuel
  cases fuel with
  | zero => rfl
  | succ k =>
    have hno : ¬ (first < (dpSplit pts first l).2 ∧ (dpSplit pts first l).2 < l) := by
      omega
    simp only [simplifyDPGo]
    by_cases hb : ltSqrt tol (dpSplit pts first l).1 = true
    · rw [if_pos hb, if_neg hno]
    · rw [if_neg hb]

theorem simplifyDPGo_congr (pts : Array Pt) (tol : ℚ) :
    ∀ fuel fuel' first l, l - first ≤ fuel → l - first ≤ fuel' →
      simplifyDPGo pts tol fuel first l = simplifyDPGo pts tol fuel' first l := by
  intro fuel
  induction fuel with
  | zero =>
    intro fuel' first l h h'
    have hl : l ≤ first := by omega
    rw [simplifyDPGo_nil pts tol first l hl fuel', simplifyDPGo_nil pts tol first l hl 0]
  | succ fuel ih =>
    intro fuel' first l h h'
    by_cases hl : l ≤ first
    · rw [simplifyDPGo_nil pts tol first l hl, simplifyDPGo_nil pts tol first l hl]
    · push_neg at hl
      cases fuel' with
      | zero => omega
      | succ k =>
        simp only [simplifyDPGo]
        by_cases hb : ltSqrt tol (dpSplit pts first l).1 = true
        · rw [if_pos hb, if_pos hb]
          by_cases hmid : first < (dpSplit pts first l).2 ∧ (dpSplit pts first l).2 < l
          · rw [if_pos hmid, if_pos hmid]
            rw [ih k first (dpSplit pts first l).2 (by omega) (by omega)]
            rw [ih k (dpSplit pts first l).2 l (by omega) (by omega)]
          · rw [if_neg hmid, if_neg hmid]
        · rw [if_neg hb, if_neg hb]

theorem simplifyDPGo_eq_simplifyDP (pts : Array Pt) (tol : ℚ) (fuel first l : ℕ)
    (h : l - first ≤ fuel) :
    simplifyDPGo pts tol fuel first l = simplifyDP pts first l tol :=
  simplifyDPGo_congr pts tol fuel (l - first) first l h (Nat.le_refl _)

/-- One step of the source's recursion, with the sub-calls at their own
canonical fuel. -/
theorem simplifyDP_unfold (pts : Array Pt) (first l : ℕ) (tol : ℚ) :
    simplifyDP pts first l tol =
      if ltSqrt tol (dpSplit pts first l).1 = true then
        if first < (dpSplit pts first l).2 ∧ (dpSplit pts first l).2 < l then
          simplifyDP pts first (dpSplit pts first l).2 tol
            ++ pts.getD (dpSplit pts first l).2 (0, 0)
            :: simplifyDP pts (dpSplit pts first l).2 l tol
        else []
      else []
    := by
  by_cases hl : l ≤ first
  · have hno : ¬ (first < (dpSplit pts first l).2 ∧ (dpSplit pts first l).2 < l) := by
      omega
    unfold simplifyDP
    rw [simplifyDPGo_nil pts tol first l hl]
    by_cases hb : ltSqrt tol (dpSplit pts first l).1 = true
    · rw [if_pos hb, if_neg hno]
    · rw [if_neg hb]
  · push_neg at hl
    have h1 : l - first = (l - first - 1) + 1 := by omega
    unfold simplifyDP
    rw [h1]
    simp only [simplifyDPGo]
    by_cases hb : ltSqrt tol (dpSplit pts first l).1 = true
    · rw [if_pos hb, if_pos hb]
      by_cases hmid : first < (dpSplit pts first l).2 ∧ (dpSplit pts first l).2 < l
      · rw [if_pos hmid, if_pos hmid]
        rw [simplifyDPGo_eq_simplifyDP pts tol (l - first - 1) first _ (by omega)]
        rw [simplifyDPGo_eq_simplifyDP pts tol (l - first - 1) _ l (by omega)]
        rfl
      · rw [if_neg hmid, if_neg hmid]
    · rw [if_neg hb, if_neg hb]

/-! ## Unfolding lemmas for the engine entry points -/

theorem simplifyDouglasPeucker_eq (pts : Array Pt) (tol : ℚ) (hq : Bool)
    (h : ¬ pts.size < 3) :
    simplifyDouglasPeucker pts tol hq =
      if (pts.getD 0 (0, 0) :: simplifyDP pts 0 (pts.size - 1) tol).getLastD (0, 0)
          ≠ pts.getD (pts.size - 1) (0, 0) then
        (pts.getD 0 (0, 0) :: simplifyDP pts 0 (pts.size - 1) tol)
          ++ [pts.getD (pts.size - 1) (0, 0)]
      else pts.getD 0 (0, 0) :: simplifyDP pts 0 (pts.size - 1) tol := by
  unfold simplifyDouglasPeucker
  rw [if_neg h]

theorem simplify_classic_eq (pts : Array Pt) (tol : ℚ) (hq : Bool)
    (h : ¬ pts.size < 3) :
    simplify pts tol hq none = simplifyDouglasPeucker pts tol hq := by
  unfold simplify
  rw [if_neg h]
  rfl

/-! ### Staged evaluation of the Douglas-Peucker run on `c1Input`

One lemma per recursion range of `simplifyDP(c1Input, first, last, 5)`,
proved in dependency order; each evaluates one scan and reuses the
sub-range results. -/

theorem c1dp_0_6 : simplifyDP c1Input 0 6 5 = [] := by
  rw [simplifyDP_unfold]
  rw [if_neg (show ¬ ltSqrt 5 (dpSplit c1Input 0 6).1 = true from by
    with_unfolding_all decide)]

theorem c1dp_6_13 : simplifyDP c1Input 6 13 5 = [] := by
  rw [simplifyDP_unfold]
  rw [if_neg (show ¬ ltSqrt 5 (dpSplit c1Input 6 13).1 = true from by
    with_unfolding_all decide)]

theorem c1dp_0_13 : simplifyDP c1Input 0 13 5 = [(267.76, 213.81)] := by
  have hs2 : (dpSplit c1Input 0 13).2 = 6 := by with_unfolding_all rfl
  rw [simplifyDP_unfold, hs2]
  rw [if_pos (show ltSqrt 5 (dpSplit c1Input 0 13).1 = true from by
    with_unfolding_all rfl)]
  rw [if_pos (show 0 < 6 ∧ 6 < 13 from by decide)]
  rw [c1dp_0_6, c1dp_6_13]
  with_unfolding_all rfl

theorem c1dp_13_16 : simplifyDP c1Input 13 16 5 = [] := by
  rw [simplifyDP_unfold]
  rw [if_neg (show ¬ ltSqrt 5 (dpSplit c1Input 13 16).1 = true from by
    with_unfolding_all decide)]

theorem c1dp_16_21 : simplifyDP c1Input 16 21 5 = [] := by
  rw [simplifyDP_unfold]
  rw [if_neg (show ¬ ltSqrt 5 (dpSplit c1Input 16 21).1 = true from by
    with_unfolding_all decide)]

theorem c1dp_13_21 : simplifyDP c1Input 13 21 5 = [(330.33, 137.57)] := by
  have hs2 : (dpSplit c1Input 13 21).2 = 16 := by with_unfolding_all rfl
  rw [simplifyDP_unfold, hs2]
  rw [if_pos (show ltSqrt 5 (dpSplit c1Input 13 21).1 = true from by
    with_unfolding_all rfl)]
  rw [if_pos (show 13 < 16 ∧ 16 < 21 from by decide)]
  rw [c1dp_13_16, c1dp_16_21]
  with_unfolding_all rfl

theorem c1dp_21_24 : simplifyDP c1Input 21 24 5 = [] := by
  rw [simplifyDP_unfold]
  rw [if_neg (show ¬ ltSqrt 5 (dpSplit c1Input 21 24).1 = true from by
    with_unfolding_all decide)]

theorem c1dp_24_26 : simplifyDP c1Input 24 26 5 = [] := by
  rw [simplifyDP_unfold]
  rw [if_neg (show ¬ ltSqrt 5 (dpSplit c1Input 24 26).1 = true from by
    with_unfolding_all decide)]

theorem c1dp_21_26 : simplifyDP c1Input 21 26 5 = [(439.60, 119.74)] := by
  have hs2 : (dpSplit c1Input 21 26).2 = 24 := by with_unfolding_all rfl
  rw [simplifyDP_unfold, hs2]
  rw [if_pos (show ltSqrt 5 (dpSplit c1Input 21 26).1 = true from by
    with_unfolding_all rfl)]
  rw [if_pos (show 21 < 24 ∧ 24 < 26 from by decide)]
  rw [c1dp_21_24, c1dp_24_26]
  with_unfolding_all rfl

theorem c1dp_13_26 : simplifyDP c1Input 13 26 5 = [(330.33, 137.57), (409.52,
    141.14), (439.60, 119.74)] := by
  have hs2 : (dpSplit c1Input 13 26).2 = 21 := by with_unfolding_all rfl
  rw [simplifyDP_unfold, hs2]
  rw [if_pos (show ltSqrt 5 (dpSplit c1Input 13 26).1 = true from by
    with_unfolding_all rfl)]
  rw [if_pos (show 13 < 21 ∧ 21 < 26 from by decide)]
  rw [c1dp_13_21, c1dp_21_26]
  with_unfolding_all rfl

theorem c1dp_0_26 : simplifyDP c1Input 0 26 5 = [(267.76, 213.81), (296.91,
    155.64), (330.33, 137.57), (409.52, 141.14), (439.60, 119.74)] := by
  have hs2 : (dpSplit c1Input 0 26).2 = 13 := by with_unfolding_all rfl
  rw [simplifyDP_unfold, hs2]
  rw [if_pos (show ltSqrt 5 (dpSplit c1Input 0 26).1 = true from by
    with_unfolding_all rfl)]
  rw [if_pos (show 0 < 13 ∧ 13 < 26 from by decide)]
  rw [c1dp_0_13, c1dp_13_26]
  with_unfolding_all rfl

theorem c1dp_26_33 : simplifyDP c1Input 26 33 5 = [] := by
  rw [simplifyDP_unfold]
  rw [if_neg (show ¬ ltSqrt 5 (dpSplit c1Input 26 33).1 = true from by
    with_unfolding_all decide)]

theorem c1dp_33_35 : simplifyDP c1Input 33 35 5 = [] := by
  rw [simplifyDP_unfold]
  rw [if_neg (show ¬ ltSqrt 5 (dpSplit c1Input 33 35).1 = true from by
    with_unfolding_all decide)]

theorem c1dp_26_35 : simplifyDP c1Input 26 35 5 = [(529.57, 127.86)] := by
  have hs2 : (dpSplit c1Input 26 35).2 = 33 := by with_unfolding_all rfl
  rw [simplifyDP_unfold, hs2]
  rw [if_pos (show ltSqrt 5 (dpSplit c1Input 26 35).1 = true from by
    with_unfolding_all rfl)]
  rw [if_pos (show 26 < 33 ∧ 33 < 35 from by decide)]
  rw [c1dp_26_33, c1dp_33_35]
  with_unfolding_all rfl

theorem c1dp_35_40 : simplifyDP c1Input 35 40 5 = [] := by
  rw [simplifyDP_unfold]
  rw [if_neg (show ¬ ltSqrt 5 (dpSplit c1Input 35 40).1 = true from by
    with_unfolding_all decide)]

theorem c1dp_26_40 : simplifyDP c1Input 26 40 5 = [(529.57, 127.86), (539.27,
    147.24)] := by
  have hs2 : (dpSplit c1Input 26 40).2 = 35 := by with_unfolding_all rfl
  rw [simplifyDP_unfold, hs2]
  rw [if_pos (show ltSqrt 5 (dpSplit c1Input 26 40).1 = true from by
    with_unfolding_all rfl)]
  rw [if_pos (show 26 < 35 ∧ 35 < 40 from by decide)]
  rw [c1dp_26_35, c1dp_35_40]
  with_unfolding_all rfl

theorem c1dp_40_42 : simplifyDP c1Input 40 42 5 = [] := by
  rw [simplifyDP_unfold]
  rw [if_neg (show ¬ ltSqrt 5 (dpSplit c1Input 40 42).1 = true from by
    with_unfolding_all decide)]

theorem c1dp_42_46 : simplifyDP c1Input 42 46 5 = [] := by
  rw [simplifyDP_unfold]
  rw [if_neg (show ¬ ltSqrt 5 (dpSplit c1Input 42 46).1 = true from by
    with_unfolding_all decide)]

theorem c1dp_40_46 : simplifyDP c1Input 40 46 5 = [(629.55, 194.60)] := by
  have hs2 : (dpSplit c1Input 40 46).2 = 42 := by with_unfolding_all rfl
  rw [simplifyDP_unfold, hs2]
  rw [if_pos (show ltSqrt 5 (dpSplit c1Input 40 46).1 = true from by
    with_unfolding_all rfl)]
  rw [if_pos (show 40 < 42 ∧ 42 < 46 from by decide)]
  rw [c1dp_40_42, c1dp_42_46]
  with_unfolding_all rfl

theorem c1dp_26_46 : simplifyDP c1Input 26 46 5 = [(529.57, 127.86), (539.27,
    147.24), (617.74, 159.86), (629.55, 194.60)] := by
  have hs2 : (dpSplit c1Input 26 46).2 = 40 := by with_unfolding_all rfl
  rw [simplifyDP_unfold, hs2]
  rw [if_pos (show ltSqrt 5 (dpSplit c1Input 26 46).1 = true from by
    with_unfolding_all rfl)]
  rw [if_pos (show 26 < 40 ∧ 40 < 46 from by decide)]
  rw [c1dp_26_40, c1dp_40_46]
  with_unfolding_all rfl

theorem c1dp_46_53 : simplifyDP c1Input 46 53 5 = [] := by
  rw [simplifyDP_unfold]
  rw [if_neg (show ¬ ltSqrt 5 (dpSplit c1Input 46 53).1 = true from by
    with_unfolding_all decide)]

theorem c1dp_53_56 : simplifyDP c1Input 53 56 5 = [] := by
  rw [simplifyDP_unfold]
  rw [if_neg (show ¬ ltSqrt 5 (dpSplit c1Input 53 56).1 = true from by
    with_unfolding_all decide)]

theorem c1dp_46_56 : simplifyDP c1Input 46 56 5 = [(727.81, 213.36)] := by
  have hs2 : (dpSplit c1Input 46 56).2 = 53 := by with_unfolding_all rfl
  rw [simplifyDP_unfold, hs2]
  rw [if_pos (show ltSqrt 5 (dpSplit c1Input 46 56).1 = true from by
    with_unfolding_all rfl)]
  rw [if_pos (show 46 < 53 ∧ 53 < 56 from by decide)]
  rw [c1dp_46_53, c1dp_53_56]
  with_unfolding_all rfl

theorem c1dp_56_57 : simplifyDP c1Input 56 57 5 = [] := by
  rw [simplifyDP_unfold]
  rw [if_neg (show ¬ ltSqrt 5 (dpSplit c1Input 56 57).1 = true from by
    with_unfolding_all decide)]

theorem c1dp_57_59 : simplifyDP c1Input 57 59 5 = [] := by
  rw [simplifyDP_unfold]
  rw [if_neg (show ¬ ltSqrt 5 (dpSplit c1Input 57 59).1 = true from by
    with_unfolding_all decide)]

theorem c1dp_56_59 : simplifyDP c1Input 56 59 5 = [(769.98, 208.42)] := by
  have hs2 : (dpSplit c1Input 56 59).2 = 57 := by with_unfolding_all rfl
  rw [simplifyDP_unfold, hs2]
  rw [if_pos (show ltSqrt 5 (dpSplit c1Input 56 59).1 = true from by
    with_unfolding_all rfl)]
  rw [if_pos (show 56 < 57 ∧ 57 < 59 from by decide)]
  rw [c1dp_56_57, c1dp_57_59]
  with_unfolding_all rfl

theorem c1dp_59_60 : simplifyDP c1Input 59 60 5 = [] := by
  rw [simplifyDP_unfold]
  rw [if_neg (show ¬ ltSqrt 5 (dpSplit c1Input 59 60).1 = true from by
    with_unfolding_all decide)]

theorem c1dp_56_60 : simplifyDP c1Input 56 60 5 = [(769.98, 208.42), (784.20,
    218.16)] := by
  have hs2 : (dpSplit c1Input 56 60).2 = 59 := by with_unfolding_all rfl
  rw [simplifyDP_unfold, hs2]
  rw [if_pos (show ltSqrt 5 (dpSplit c1Input 56 60).1 = true from by
    with_unfolding_all rfl)]
  rw [if_pos (show 56 < 59 ∧ 59 < 60 from by decide)]
  rw [c1dp_56_59, c1dp_59_60]
  with_unfolding_all rfl

theorem c1dp_46_60 : simplifyDP c1Input 46 60 5 = [(727.81, 213.36), (739.94,
    204.77), (769.98, 208.42), (784.20, 218.16)] := by
  have hs2 : (dpSplit c1Input 46 60).2 = 56 := by with_unfolding_all rfl
  rw [simplifyDP_unfold, hs2]
  rw [if_pos (show ltSqrt 5 (dpSplit c1Input 46 60).1 = true from by
    with_unfolding_all rfl)]
  rw [if_pos (show 46 < 56 ∧ 56 < 60 from by decide)]
  rw [c1dp_46_56, c1dp_56_60]
  with_unfolding_all rfl

theorem c1dp_26_60 : simplifyDP c1Input 26 60 5 = [(529.57, 127.86), (539.27,
    147.24), (617.74, 159.86), (629.55, 194.60), (671.55, 222.55), (727.81,
    213.36), (739.94, 204.77), (769.98, 208.42), (784.20, 218.16)] := by
  have hs2 : (dpSplit c1Input 26 60).2 = 46 := by with_unfolding_all rfl
  rw [simplifyDP_unfold, hs2]
  rw [if_pos (show ltSqrt 5 (dpSplit c1Input 26 60).1 = true from by
    with_unfolding_all rfl)]
  rw [if_pos (show 26 < 46 ∧ 46 < 60 from by decide)]
  rw [c1dp_26_46, c1dp_46_60]
  with_unfolding_all rfl

theorem c1dp_0_60 : simplifyDP c1Input 0 60 5 = [(267.76, 213.81), (296.91,
    155.64), (330.33, 137.57), (409.52, 141.14), (439.60, 119.74), (486.51,
    106.75), (529.57, 127.86), (539.27, 147.24), (617.74, 159.86), (629.55,
    194.60), (671.55, 222.55), (727.81, 213.36), (739.94, 204.77), (769.98,
    208.42), (784.20, 218.16)] := by
  have hs2 : (dpSplit c1Input 0 60).2 = 26 := by with_unfolding_all rfl
  rw [simplifyDP_unfold, hs2]
  rw [if_pos (show ltSqrt 5 (dpSplit c1Input 0 60).1 = true from by
    with_unfolding_all rfl)]
  rw [if_pos (show 0 < 26 ∧ 26 < 60 from by decide)]
  rw [c1dp_0_26, c1dp_26_60]
  with_unfolding_all rfl

theorem c1dp_60_63 : simplifyDP c1Input 60 63 5 = [] := by
  rw [simplifyDP_unfold]
  rw [if_neg (show ¬ ltSqrt 5 (dpSplit c1Input 60 63).1 = true from by
    with_unfolding_all decide)]

theorem c1dp_63_67 : simplifyDP c1Input 63 67 5 = [] := by
  rw [simplifyDP_unfold]
  rw [if_neg (show ¬ ltSqrt 5 (dpSplit c1Input 63 67).1 = true from by
    with_unfolding_all decide)]

theorem c1dp_60_67 : simplifyDP c1Input 60 67 5 = [(820.77, 236.17)] := by
  have hs2 : (dpSplit c1Input 60 67).2 = 63 := by with_unfolding_all rfl
  rw [simplifyDP_unfold, hs2]
  rw [if_pos (show ltSqrt 5 (dpSplit c1Input 60 67).1 = true from by
    with_unfolding_all rfl)]
  rw [if_pos (show 60 < 63 ∧ 63 < 67 from by decide)]
  rw [c1dp_60_63, c1dp_63_67]
  with_unfolding_all rfl

theorem c1dp_67_68 : simplifyDP c1Input 67 68 5 = [] := by
  rw [simplifyDP_unfold]
  rw [if_neg (show ¬ ltSqrt 5 (dpSplit c1Input 67 68).1 = true from by
    with_unfolding_all decide)]

theorem c1dp_60_68 : simplifyDP c1Input 60 68 5 = [(820.77, 236.17), (859.88,
    255.49)] := by
  have hs2 : (dpSplit c1Input 60 68).2 = 67 := by with_unfolding_all rfl
  rw [simplifyDP_unfold, hs2]
  rw [if_pos (show ltSqrt 5 (dpSplit c1Input 60 68).1 = true from by
    with_unfolding_all rfl)]
  rw [if_pos (show 60 < 67 ∧ 67 < 68 from by decide)]
  rw [c1dp_60_67, c1dp_67_68]
  with_unfolding_all rfl

theorem c1dp_68_69 : simplifyDP c1Input 68 69 5 = [] := by
  rw [simplifyDP_unfold]
  rw [if_neg (show ¬ ltSqrt 5 (dpSplit c1Input 68 69).1 = true from by
    with_unfolding_all decide)]

theorem c1dp_69_73 : simplifyDP c1Input 69 73 5 = [] := by
  rw [simplifyDP_unfold]
  rw [if_neg (show ¬ ltSqrt 5 (dpSplit c1Input 69 73).1 = true from by
    with_unfolding_all decide)]

theorem c1dp_68_73 : simplifyDP c1Input 68 73 5 = [(857.95, 280.30)] := by
  have hs2 : (dpSplit c1Input 68 73).2 = 69 := by with_unfolding_all rfl
  rw [simplifyDP_unfold, hs2]
  rw [if_pos (show ltSqrt 5 (dpSplit c1Input 68 73).1 = true from by
    with_unfolding_all rfl)]
  rw [if_pos (show 68 < 69 ∧ 69 < 73 from by decide)]
  rw [c1dp_68_69, c1dp_69_73]
  with_unfolding_all rfl

theorem c1dp_73_76 : simplifyDP c1Input 73 76 5 = [] := by
  rw [simplifyDP_unfold]
  rw [if_neg (show ¬ ltSqrt 5 (dpSplit c1Input 73 76).1 = true from by
    with_unfolding_all decide)]

theorem c1dp_76_78 : simplifyDP c1Input 76 78 5 = [] := by
  rw [simplifyDP_unfold]
  rw [if_neg (show ¬ ltSqrt 5 (dpSplit c1Input 76 78).1 = true from by
    with_unfolding_all decide)]

theorem c1dp_78_79 : simplifyDP c1Input 78 79 5 = [] := by
  rw [simplifyDP_unfold]
  rw [if_neg (show ¬ ltSqrt 5 (dpSplit c1Input 78 79).1 = true from by
    with_unfolding_all decide)]

theorem c1dp_76_79 : simplifyDP c1Input 76 79 5 = [(854.54, 335.40)] := by
  have hs2 : (dpSplit c1Input 76 79).2 = 78 := by with_unfolding_all rfl
  rw [simplifyDP_unfold, hs2]
  rw [if_pos (show ltSqrt 5 (dpSplit c1Input 76 79).1 = true from by
    with_unfolding_all rfl)]
  rw [if_pos (show 76 < 78 ∧ 78 < 79 from by decide)]
  rw [c1dp_76_78, c1dp_78_79]
  with_unfolding_all rfl

theorem c1dp_79_82 : simplifyDP c1Input 79 82 5 = [] := by
  rw [simplifyDP_unfold]
  rw [if_neg (show ¬ ltSqrt 5 (dpSplit c1Input 79 82).1 = true from by
    with_unfolding_all decide)]

theorem c1dp_76_82 : simplifyDP c1Input 76 82 5 = [(854.54, 335.40), (860.92,
    343.00)] := by
  have hs2 : (dpSplit c1Input 76 82).2 = 79 := by with_unfolding_all rfl
  rw [simplifyDP_unfold, hs2]
  rw [if_pos (show ltSqrt 5 (dpSplit c1Input 76 82).1 = true from by
    with_unfolding_all rfl)]
  rw [if_pos (show 76 < 79 ∧ 79 < 82 from by decide)]
  rw [c1dp_76_79, c1dp_79_82]
  with_unfolding_all rfl

theorem c1dp_82_83 : simplifyDP c1Input 82 83 5 = [] := by
  rw [simplifyDP_unfold]
  rw [if_neg (show ¬ ltSqrt 5 (dpSplit c1Input 82 83).1 = true from by
    with_unfolding_all decide)]

theorem c1dp_76_83 : simplifyDP c1Input 76 83 5 = [(854.54, 335.40), (860.92,
    343.00), (849.84, 359.59)] := by
  have hs2 : (dpSplit c1Input 76 83).2 = 82 := by with_unfolding_all rfl
  rw [simplifyDP_unfold, hs2]
  rw [if_pos (show ltSqrt 5 (dpSplit c1Input 76 83).1 = true from by
    with_unfolding_all rfl)]
  rw [if_pos (show 76 < 82 ∧ 82 < 83 from by decide)]
  rw [c1dp_76_82, c1dp_82_83]
  with_unfolding_all rfl

theorem c1dp_73_83 : simplifyDP c1Input 73 83 5 = [(858.29, 314.94), (854.54,
    335.40), (860.92, 343.00), (849.84, 359.59)] := by
  have hs2 : (dpSplit c1Input 73 83).2 = 76 := by with_unfolding_all rfl
  rw [simplifyDP_unfold, hs2]
  rw [if_pos (show ltSqrt 5 (dpSplit c1Input 73 83).1 = true from by
    with_unfolding_all rfl)]
  rw [if_pos (show 73 < 76 ∧ 76 < 83 from by decide)]
  rw [c1dp_73_76, c1dp_76_83]
  with_unfolding_all rfl

theorem c1dp_83_85 : simplifyDP c1Input 83 85 5 = [] := by
  rw [simplifyDP_unfold]
  rw [if_neg (show ¬ ltSqrt 5 (dpSplit c1Input 83 85).1 = true from by
    with_unfolding_all decide)]

theorem c1dp_85_88 : simplifyDP c1Input 85 88 5 = [] := by
  rw [simplifyDP_unfold]
  rw [if_neg (show ¬ ltSqrt 5 (dpSplit c1Input 85 88).1 = true from by
    with_unfolding_all decide)]

theorem c1dp_83_88 : simplifyDP c1Input 83 88 5 = [(844.09, 371.89)] := by
  have hs2 : (dpSplit c1Input 83 88).2 = 85 := by with_unfolding_all rfl
  rw [simplifyDP_unfold, hs2]
  rw [if_pos (show ltSqrt 5 (dpSplit c1Input 83 88).1 = true from by
    with_unfolding_all rfl)]
  rw [if_pos (show 83 < 85 ∧ 85 < 88 from by decide)]
  rw [c1dp_83_85, c1dp_85_88]
  with_unfolding_all rfl

theorem c1dp_73_88 : simplifyDP c1Input 73 88 5 = [(858.29, 314.94), (854.54,
    335.40), (860.92, 343.00), (849.84, 359.59), (854.56, 365.53), (844.09,
    371.89)] := by
  have hs2 : (dpSplit c1Input 73 88).2 = 83 := by with_unfolding_all rfl
  rw [simplifyDP_unfold, hs2]
  rw [if_pos (show ltSqrt 5 (dpSplit c1Input 73 88).1 = true from by
    with_unfolding_all rfl)]
  rw [if_pos (show 73 < 83 ∧ 83 < 88 from by decide)]
  rw [c1dp_73_83, c1dp_83_88]
  with_unfolding_all rfl

theorem c1dp_88_90 : simplifyDP c1Input 88 90 5 = [] := by
  rw [simplifyDP_unfold]
  rw [if_neg (show ¬ ltSqrt 5 (dpSplit c1Input 88 90).1 = true from by
    with_unfolding_all decide)]

theorem c1dp_90_93 : simplifyDP c1Input 90 93 5 = [] := by
  rw [simplifyDP_unfold]
  rw [if_neg (show ¬ ltSqrt 5 (dpSplit c1Input 90 93).1 = true from by
    with_unfolding_all decide)]

theorem c1dp_88_93 : simplifyDP c1Input 88 93 5 = [(848.40, 407.55)] := by
  have hs2 : (dpSplit c1Input 88 93).2 = 90 := by with_unfolding_all rfl
  rw [simplifyDP_unfold, hs2]
  rw [if_pos (show ltSqrt 5 (dpSplit c1Input 88 93).1 = true from by
    with_unfolding_all rfl)]
  rw [if_pos (show 88 < 90 ∧ 90 < 93 from by decide)]
  rw [c1dp_88_90, c1dp_90_93]
  with_unfolding_all rfl

theorem c1dp_73_93 : simplifyDP c1Input 73 93 5 = [(858.29, 314.94), (854.54,
    335.40), (860.92, 343.00), (849.84, 359.59), (854.56, 365.53), (844.09,
    371.89), (839.57, 390.40), (848.40, 407.55)] := by
  have hs2 : (dpSplit c1Input 73 93).2 = 88 := by with_unfolding_all rfl
  rw [simplifyDP_unfold, hs2]
  rw [if_pos (show ltSqrt 5 (dpSplit c1Input 73 93).1 = true from by
    with_unfolding_all rfl)]
  rw [if_pos (show 73 < 88 ∧ 88 < 93 from by decide)]
  rw [c1dp_73_88, c1dp_88_93]
  with_unfolding_all rfl

theorem c1dp_68_93 : simplifyDP c1Input 68 93 5 = [(857.95, 280.30), (867.79,
    306.17), (858.29, 314.94), (854.54, 335.40), (860.92, 343.00), (849.84,
    359.59), (854.56, 365.53), (844.09, 371.89), (839.57, 390.40), (848.40,
    407.55)] := by
  have hs2 : (dpSplit c1Input 68 93).2 = 73 := by with_unfolding_all rfl
  rw [simplifyDP_unfold, hs2]
  rw [if_pos (show ltSqrt 5 (dpSplit c1Input 68 93).1 = true from by
    with_unfolding_all rfl)]
  rw [if_pos (show 68 < 73 ∧ 73 < 93 from by decide)]
  rw [c1dp_68_73, c1dp_73_93]
  with_unfolding_all rfl

theorem c1dp_93_98 : simplifyDP c1Input 93 98 5 = [] := by
  rw [simplifyDP_unfold]
  rw [if_neg (show ¬ ltSqrt 5 (dpSplit c1Input 93 98).1 = true from by
    with_unfolding_all decide)]

theorem c1dp_98_99 : simplifyDP c1Input 98 99 5 = [] := by
  rw [simplifyDP_unfold]
  rw [if_neg (show ¬ ltSqrt 5 (dpSplit c1Input 98 99).1 = true from by
    with_unfolding_all decide)]

theorem c1dp_93_99 : simplifyDP c1Input 93 99 5 = [(853.97, 471.15)] := by
  have hs2 : (dpSplit c1Input 93 99).2 = 98 := by with_unfolding_all rfl
  rw [simplifyDP_unfold, hs2]
  rw [if_pos (show ltSqrt 5 (dpSplit c1Input 93 99).1 = true from by
    with_unfolding_all rfl)]
  rw [if_pos (show 93 < 98 ∧ 98 < 99 from by decide)]
  rw [c1dp_93_98, c1dp_98_99]
  with_unfolding_all rfl

theorem c1dp_68_99 : simplifyDP c1Input 68 99 5 = [(857.95, 280.30), (867.79,
    306.17), (858.29, 314.94), (854.54, 335.40), (860.92, 343.00), (849.84,
    359.59), (854.56, 365.53), (844.09, 371.89), (839.57, 390.40), (848.40,
    407.55), (839.51, 432.76), (853.97, 471.15)] := by
  have hs2 : (dpSplit c1Input 68 99).2 = 93 := by with_unfolding_all rfl
  rw [simplifyDP_unfold, hs2]
  rw [if_pos (show ltSqrt 5 (dpSplit c1Input 68 99).1 = true from by
    with_unfolding_all rfl)]
  rw [if_pos (show 68 < 93 ∧ 93 < 99 from by decide)]
  rw [c1dp_68_93, c1dp_93_99]
  with_unfolding_all rfl

theorem c1dp_60_99 : simplifyDP c1Input 60 99 5 = [(820.77, 236.17), (859.88,
    255.49), (865.21, 268.53), (857.95, 280.30), (867.79, 306.17), (858.29,
    314.94), (854.54, 335.40), (860.92, 343.00), (849.84, 359.59), (854.56,
    365.53), (844.09, 371.89), (839.57, 390.40), (848.40, 407.55), (839.51,
    432.76), (853.97, 471.15)] := by
  have hs2 : (dpSplit c1Input 60 99).2 = 68 := by with_unfolding_all rfl
  rw [simplifyDP_unfold, hs2]
  rw [if_pos (show ltSqrt 5 (dpSplit c1Input 60 99).1 = true from by
    with_unfolding_all rfl)]
  rw [if_pos (show 60 < 68 ∧ 68 < 99 from by decide)]
  rw [c1dp_60_68, c1dp_68_99]
  with_unfolding_all rfl

theorem c1dp_0_99 : simplifyDP c1Input 0 99 5 = [(267.76, 213.81), (296.91,
    155.64), (330.33, 137.57), (409.52, 141.14), (439.60, 119.74), (486.51,
    106.75), (529.57, 127.86), (539.27, 147.24), (617.74, 159.86), (629.55,
    194.60), (671.55, 222.55), (727.81, 213.36), (739.94, 204.77), (769.98,
    208.42), (784.20, 218.16), (800.24, 214.62), (820.77, 236.17), (859.88,
    255.49), (865.21, 268.53), (857.95, 280.30), (867.79, 306.17), (858.29,
    314.94), (854.54, 335.40), (860.92, 343.00), (849.84, 359.59), (854.56,
    365.53), (844.09, 371.89), (839.57, 390.40), (848.40, 407.55), (839.51,
    432.76), (853.97, 471.15)] := by
  have hs2 : (dpSplit c1Input 0 99).2 = 60 := by with_unfolding_all rfl
  rw [simplifyDP_unfold, hs2]
  rw [if_pos (show ltSqrt 5 (dpSplit c1Input 0 99).1 = true from by
    with_unfolding_all rfl)]
  rw [if_pos (show 0 < 60 ∧ 60 < 99 from by decide)]
  rw [c1dp_0_60, c1dp_60_99]
  with_unfolding_all rfl


/-- C1 (code bug): on the repository's own test input (100 points, not the
64 the spec claims), `simplify(points, 5)` with default `highQuality = false`
does *not* return the sequence the test (and the claim) expect: it returns
`c1Actual` (33 points; the spec says 35), which differs from the asserted
`c1Expected` at point positions 15 and 22.  The expected sequence is what
upstream `simplify-js` produces with its radial-distance pre-pass; this code
omits that pre-pass, so it fails its own test. -/
theorem c1_concrete_scenario_fails :
    simplify c1Input 5 false none = c1Actual ∧
    c1Actual ≠ c1Expected ∧
    c1Input.size = 100 ∧ c1Actual.length = 33 ∧ c1Expected.length = 33 := by
  have hsize : ¬ c1Input.size < 3 := by decide
  have hne : c1Actual ≠ c1Expected := fun h =>
    absurd (congrArg (fun L => L.getD 15 (0, 0)) h) (by with_unfolding_all decide)
  refine ⟨?_, hne, by decide, rfl, rfl⟩
  rw [simplify_classic_eq c1Input 5 false hsize,
    simplifyDouglasPeucker_eq c1Input 5 false hsize,
    show c1Input.size - 1 = 99 from by decide, c1dp_0_99]
  with_unfolding_all rfl

/-! ## Lemmas about the interior scan -/

theorem scanMaxGo_fst_le (pts : Array Pt) (x1 y1 x2 y2 : ℚ) :
    ∀ cnt i m idx, m ≤ (scanMaxGo pts x1 y1 x2 y2 i cnt m idx).1 := by
  intro cnt
  induction cnt with
  | zero => intro i m idx; exact le_refl m
  | succ cnt ih =>
    intro i m idx
    simp only [scanMaxGo]
    split
    · exact le_of_lt (lt_of_lt_of_le (by assumption) (ih _ _ _))
    · exact ih _ _ _

theorem scanMaxGo_cases (pts : Array Pt) (x1 y1 x2 y2 : ℚ) :
    ∀ cnt i m idx, scanMaxGo pts x1 y1 x2 y2 i cnt m idx = (m, idx) ∨
      (∃ j, i ≤ j ∧ j < i + cnt ∧
        (scanMaxGo pts x1 y1 x2 y2 i cnt m idx).1
          = perpendicularDistanceSq (pts.getD j (0, 0)).1 (pts.getD j (0, 0)).2
              x1 y1 x2 y2 ∧
        (scanMaxGo pts x1 y1 x2 y2 i cnt m idx).2 = j ∧
        m < (scanMaxGo pts x1 y1 x2 y2 i cnt m idx).1) := by
  intro cnt
  induction cnt with
  | zero => intro i m idx; exact Or.inl rfl
  | succ cnt ih =>
    intro i m idx
    simp only [scanMaxGo]
    split
    · rename_i hlt
      rcases ih (i + 1)
          (perpendicularDistanceSq (pts.getD i (0, 0)).1 (pts.getD i (0, 0)).2 x1 y1 x2 y2)
          i with h | ⟨j, hj1, hj2, hj3, hj4, hj5⟩
      · refine Or.inr ⟨i, le_refl i, by omega, ?_, ?_, ?_⟩
        · rw [h]
        · rw [h]
        · rw [h]; exact hlt
      · exact Or.inr ⟨j, by omega, by omega, hj3, hj4, lt_trans hlt hj5⟩
    · rcases ih (i + 1) m idx with h | ⟨j, hj1, hj2, hj3, hj4, hj5⟩
      · exact Or.inl h
      · exact Or.inr ⟨j, by omega, by omega, hj3, hj4, hj5⟩

theorem scanMaxGo_ge (pts : Array Pt) (x1 y1 x2 y2 : ℚ) :
    ∀ cnt i m idx j, i ≤ j → j < i + cnt →
      perpendicularDistanceSq (pts.getD j (0, 0)).1 (pts.getD j (0, 0)).2 x1 y1 x2 y2
        ≤ (scanMaxGo pts x1 y1 x2 y2 i cnt m idx).1 := by
  intro cnt
  induction cnt with
  | zero => intro i m idx j h1 h2; omega
  | succ cnt ih =>
    intro i m idx j h1 h2
    simp only [scanMaxGo]
    rcases Nat.eq_or_lt_of_le h1 with rfl | hlt
    · split
      · exact le_trans (le_refl _) (scanMaxGo_fst_le pts x1 y1 x2 y2 cnt _ _ _)
      · rename_i hnlt
        push_neg at hnlt
        exact le_trans hnlt (scanMaxGo_fst_le pts x1 y1 x2 y2 cnt _ _ _)
    · split
      · exact ih _ _ _ j (by omega) (by omega)
      · exact ih _ _ _ j (by omega) (by omega)

theorem scanMaxGo_before_lt (pts : Array Pt) (x1 y1 x2 y2 : ℚ) :
    ∀ cnt i m idx,
      m < (scanMaxGo pts x1 y1 x2 y2 i cnt m idx).1 →
      ∀ j, i ≤ j → j < (scanMaxGo pts x1 y1 x2 y2 i cnt m idx).2 →
        perpendicularDistanceSq (pts.getD j (0, 0)).1 (pts.getD j (0, 0)).2 x1 y1 x2 y2
          < (scanMaxGo pts x1 y1 x2 y2 i cnt m idx).1 := by
  intro cnt
  induction cnt with
  | zero => intro i m idx h; exact absurd h (lt_irrefl m)
  | succ cnt ih =>
    intro i m idx h j hij hjlt
    rw [scanMaxGo] at h hjlt ⊢
    revert h hjlt
    split
    · rename_i hlt
      intro h hjlt
      rcases scanMaxGo_cases pts x1 y1 x2 y2 cnt (i + 1)
          (perpendicularDistanceSq (pts.getD i (0, 0)).1 (pts.getD i (0, 0)).2 x1 y1 x2 y2)
          i with hc | ⟨k, hk1, hk2, hk3, hk4, hk5⟩
      · rw [hc] at hjlt ⊢
        omega
      · rcases Nat.eq_or_lt_of_le hij with rfl | hlt2
        · exact lt_of_lt_of_le hk5 (le_refl _)
        · exact ih (i + 1) _ i hk5 j hlt2 hjlt
    · rename_i hnlt
      push_neg at hnlt
      intro h hjlt
      rcases Nat.eq_or_lt_of_le hij with rfl | hlt2
      · exact lt_of_le_of_lt hnlt h
      · exact ih (i + 1) m idx h j hlt2 hjlt

/-! ## Lemmas about `dpSplit` -/

theorem perpendicularDistanceSq_right_self (x1 y1 x2 y2 : ℚ) :
    perpendicularDistanceSq x2 y2 x1 y1 x2 y2 = 0 := by
  simp only [perpendicularDistanceSq, hypotSq]
  by_cases h : x2 - x1 = 0 ∧ y2 - y1 = 0
  · rw [if_pos h]
    obtain ⟨h1, h2⟩ := h
    rw [h1, h2]
    ring
  · rw [if_neg h]
    have hden : (x2 - x1) * (x2 - x1) + (y2 - y1) * (y2 - y1) ≠ 0 := by
      intro h0
      apply h
      constructor
      · nlinarith [mul_self_nonneg (x2 - x1), mul_self_nonneg (y2 - y1)]
      · nlinarith [mul_self_nonneg (x2 - x1), mul_self_nonneg (y2 - y1)]
    have ht : ((x2 - x1) * (x2 - x1) + (y2 - y1) * (y2 - y1)) /
        ((x2 - x1) * (x2 - x1) + (y2 - y1) * (y2 - y1)) = 1 := div_self hden
    rw [ht]
    norm_num

theorem ltSqrt_mono (t1 t2 q : ℚ) (h : t1 ≤ t2) (h2 : ltSqrt t2 q = true) :
    ltSqrt t1 q = true := by
  unfold ltSqrt at h2 ⊢
  rw [Bool.or_eq_true, decide_eq_true_eq, decide_eq_true_eq] at h2 ⊢
  rcases lt_or_le t1 0 with h0 | h0
  · exact Or.inl h0
  · refine Or.inr ?_
    rcases h2 with h2 | h2
    · linarith
    · nlinarith

theorem ltSqrt_pos (t q : ℚ) (ht : 0 ≤ t) (h : ltSqrt t q = true) : 0 < q := by
  unfold ltSqrt at h
  rw [Bool.or_eq_true, decide_eq_true_eq, decide_eq_true_eq] at h
  rcases h with h | h
  · exact absurd h (not_lt.mpr ht)
  · nlinarith

theorem dpSplit_cases (pts : Array Pt) (first l : ℕ) :
    dpSplit pts first l = (0, 0) ∨
      (∃ j, first < j ∧ j < l ∧
        (dpSplit pts first l).1 = chordDistSq pts first l j ∧
        (dpSplit pts first l).2 = j ∧ 0 < (dpSplit pts first l).1) := by
  unfold dpSplit
  rcases scanMaxGo_cases pts (pts.getD first (0, 0)).1 (pts.getD first (0, 0)).2
      (pts.getD l (0, 0)).1 (pts.getD l (0, 0)).2 (l - (first + 1)) (first + 1) 0 0
    with h | ⟨j, hj1, hj2, hj3, hj4, hj5⟩
  · exact Or.inl h
  · exact Or.inr ⟨j, by omega, by omega, hj3, hj4, hj5⟩

theorem dpSplit_ge (pts : Array Pt) (first l : ℕ) (j : ℕ) (h1 : first < j)
    (h2 : j < l) : chordDistSq pts first l j ≤ (dpSplit pts first l).1 := by
  unfold dpSplit
  exact scanMaxGo_ge pts _ _ _ _ (l - (first + 1)) (first + 1) 0 0 j (by omega) (by omega)

theorem dpSplit_before_lt (pts : Array Pt) (first l : ℕ)
    (hpos : 0 < (dpSplit pts first l).1) :
    ∀ j, first < j → j < (dpSplit pts first l).2 →
      chordDistSq pts first l j < (dpSplit pts first l).1 := by
  intro j h1 h2
  unfold dpSplit at hpos h2 ⊢
  exact scanMaxGo_before_lt pts _ _ _ _ (l - (first + 1)) (first + 1) 0 0 hpos j
    (by omega) h2

theorem dpSplit_interior (pts : Array Pt) (first l : ℕ) (tol : ℚ) (ht : 0 ≤ tol)
    (hb : ltSqrt tol (dpSplit pts first l).1 = true) :
    first < (dpSplit pts first l).2 ∧ (dpSplit pts first l).2 < l := by
  have hpos : 0 < (dpSplit pts first l).1 := ltSqrt_pos tol _ ht hb
  rcases dpSplit_cases pts first l with h | ⟨j, hj1, hj2, _, hj4, _⟩
  · rw [h] at hpos
    exact absurd hpos (lt_irrefl 0)
  · rw [hj4]
    exact ⟨hj1, hj2⟩

theorem scanMaxGo_stable (pts : Array Pt) (x1 y1 x2 y2 : ℚ) :
    ∀ cnt i m idx,
      (∀ j, i ≤ j → j < i + cnt →
        perpendicularDistanceSq (pts.getD j (0, 0)).1 (pts.getD j (0, 0)).2 x1 y1 x2 y2 ≤ m) →
      scanMaxGo pts x1 y1 x2 y2 i cnt m idx = (m, idx) := by
  intro cnt
  induction cnt with
  | zero => intro i m idx _; rfl
  | succ cnt ih =>
    intro i m idx h
    simp only [scanMaxGo]
    rw [if_neg (not_lt.mpr (h i (le_refl i) (by omega)))]
    exact ih (i + 1) m idx fun j hj1 hj2 => h j (by omega) (by omega)

theorem scanMaxGo_pick (pts : Array Pt) (x1 y1 x2 y2 : ℚ) :
    ∀ cnt i m idx k, i ≤ k → k < i + cnt →
      m < perpendicularDistanceSq (pts.getD k (0, 0)).1 (pts.getD k (0, 0)).2 x1 y1 x2 y2 →
      (∀ j, i ≤ j → j < k →
        perpendicularDistanceSq (pts.getD j (0, 0)).1 (pts.getD j (0, 0)).2 x1 y1 x2 y2
          < perpendicularDistanceSq (pts.getD k (0, 0)).1 (pts.getD k (0, 0)).2 x1 y1 x2 y2) →
      (∀ j, k < j → j < i + cnt →
        perpendicularDistanceSq (pts.getD j (0, 0)).1 (pts.getD j (0, 0)).2 x1 y1 x2 y2
          ≤ perpendicularDistanceSq (pts.getD k (0, 0)).1 (pts.getD k (0, 0)).2 x1 y1 x2 y2) →
      scanMaxGo pts x1 y1 x2 y2 i cnt m idx =
        (perpendicularDistanceSq (pts.getD k (0, 0)).1 (pts.getD k (0, 0)).2 x1 y1 x2 y2, k) := by
  intro cnt
  induction cnt with
  | zero => intro i m idx k h1 h2; omega
  | succ cnt ih =>
    intro i m idx k h1 h2 hm hbefore hafter
    simp only [scanMaxGo]
    rcases Nat.eq_or_lt_of_le h1 with rfl | hik
    · rw [if_pos hm]
      exact scanMaxGo_stable pts x1 y1 x2 y2 cnt (i + 1) _ i
        fun j hj1 hj2 => hafter j (by omega) (by omega)
    · split
      · rename_i hlt
        exact ih (i + 1) _ i k (by omega) (by omega)
          (hbefore i (le_refl i) (by omega)) (fun j hj1 hj2 => hbefore j (by omega) hj2)
          (fun j hj1 hj2 => hafter j hj1 (by omega))
      · exact ih (i + 1) m idx k (by omega) (by omega) hm
          (fun j hj1 hj2 => hbefore j (by omega) hj2)
          (fun j hj1 hj2 => hafter j hj1 (by omega))

theorem dpSplit_pick (pts : Array Pt) (first l k : ℕ) (h1 : first < k) (h2 : k < l)
    (hpos : 0 < chordDistSq pts first l k)
    (hbefore : ∀ j, first < j → j < k →
      chordDistSq pts first l j < chordDistSq pts first l k)
    (hafter : ∀ j, k < j → j < l →
      chordDistSq pts first l j ≤ chordDistSq pts first l k) :
    dpSplit pts first l = (chordDistSq pts first l k, k) := by
  unfold dpSplit
  exact scanMaxGo_pick pts _ _ _ _ (l - (first + 1)) (first + 1) 0 0 k (by omega)
    (by omega) hpos (fun j hj1 hj2 => hbefore j (by omega) hj2)
    (fun j hj1 hj2 => hafter j hj1 (by omega))

/-! ## Endpoint preservation and tolerance monotonicity for Douglas-Peucker -/

theorem simplifyDouglasPeucker_head (pts : Array Pt) (tol : ℚ) (hq : Bool)
    (h : ¬ pts.size < 3) :
    (simplifyDouglasPeucker pts tol hq).head? = some (pts.getD 0 (0, 0)) := by
  rw [simplifyDouglasPeucker_eq pts tol hq h]
  split
  · rfl
  · rfl

theorem simplifyDouglasPeucker_last (pts : Array Pt) (tol : ℚ) (hq : Bool)
    (h : ¬ pts.size < 3) :
    (simplifyDouglasPeucker pts tol hq).getLast?
      = some (pts.getD (pts.size - 1) (0, 0)) := by
  rw [simplifyDouglasPeucker_eq pts tol hq h]
  split
  · exact List.getLast?_concat _
  · rename_i hcond
    have h1 : (pts.getD 0 (0, 0) :: simplifyDP pts 0 (pts.size - 1) tol).getLastD (0, 0)
        = pts.getD (pts.size - 1) (0, 0) := not_ne_iff.mp hcond
    rw [List.getLastD_eq_getLast?] at h1
    have h2 : (pts.getD 0 (0, 0) :: simplifyDP pts 0 (pts.size - 1) tol).getLast?
        = some ((pts.getD 0 (0, 0) :: simplifyDP pts 0 (pts.size - 1) tol).getLast
            (List.cons_ne_nil _ _)) :=
      List.getLast?_eq_getLast _ _
    rw [h2] at h1 ⊢
    rw [Option.getD_some] at h1
    rw [h1]

theorem simplifyDP_sublist (pts : Array Pt) (t1 t2 : ℚ) (h12 : t1 ≤ t2) :
    ∀ d f l, l - f ≤ d → (simplifyDP pts f l t2).Sublist (simplifyDP pts f l t1) := by
  intro d
  induction d with
  | zero =>
    intro f l h
    unfold simplifyDP
    rw [show l - f = 0 from by omega]
    exact List.nil_sublist _
  | succ d ih =>
    intro f l h
    rw [simplifyDP_unfold pts f l t2, simplifyDP_unfold pts f l t1]
    by_cases hb2 : ltSqrt t2 (dpSplit pts f l).1 = true
    · have hb1 := ltSqrt_mono t1 t2 _ h12 hb2
      rw [if_pos hb2, if_pos hb1]
      by_cases hmid : f < (dpSplit pts f l).2 ∧ (dpSplit pts f l).2 < l
      · rw [if_pos hmid, if_pos hmid]
        exact List.Sublist.append (ih f _ (by omega))
          (List.Sublist.cons₂ _ (ih _ l (by omega)))
      · rw [if_neg hmid, if_neg hmid]
    · rw [if_neg hb2]
      exact List.nil_sublist _

theorem simplifyDouglasPeucker_length_mono (pts : Array Pt) (t1 t2 : ℚ)
    (hq : Bool) (h12 : t1 ≤ t2) :
    (simplifyDouglasPeucker pts t2 hq).length
      ≤ (simplifyDouglasPeucker pts t1 hq).length := by
  by_cases hsz : pts.size < 3
  · unfold simplifyDouglasPeucker
    rw [if_pos hsz, if_pos hsz]
  · rw [simplifyDouglasPeucker_eq pts t2 hq hsz, simplifyDouglasPeucker_eq pts t1 hq hsz]
    have hsub : (simplifyDP pts 0 (pts.size - 1) t2).Sublist
        (simplifyDP pts 0 (pts.size - 1) t1) :=
      simplifyDP_sublist pts t1 t2 h12 (pts.size - 1) 0 (pts.size - 1) (by omega)
    have hlen := hsub.length_le
    by_cases hp2 : (pts.getD 0 (0, 0) :: simplifyDP pts 0 (pts.size - 1) t2).getLastD (0, 0)
        ≠ pts.getD (pts.size - 1) (0, 0)
    · by_cases hp1 : (pts.getD 0 (0, 0) :: simplifyDP pts 0 (pts.size - 1) t1).getLastD (0, 0)
          ≠ pts.getD (pts.size - 1) (0, 0)
      · rw [if_pos hp2, if_pos hp1]
        simp only [List.length_append, List.length_cons, List.length_nil]
        omega
      · rw [if_pos hp2, if_neg hp1]
        have hne : (simplifyDP pts 0 (pts.size - 1) t2).length
            ≠ (simplifyDP pts 0 (pts.size - 1) t1).length := by
          intro heq
          rw [hsub.eq_of_length heq] at hp2
          exact hp2 (not_ne_iff.mp hp1)
        simp only [List.length_append, List.length_cons, List.length_nil]
        omega
    · rw [if_neg hp2]
      split
      · simp only [List.length_append, List.length_cons, List.length_nil]
        omega
      · simp only [List.length_cons]
        omega

/-! ## List index helpers -/

theorem array_getD_toList (pts : Array Pt) (j : ℕ) (d : Pt) :
    pts.getD j d = pts.toList.getD j d := by
  rw [Array.getD_eq_get?, Array.getElem?_eq_getElem?_toList, List.getD_eq_getElem?_getD]

theorem getD_append_left_length (d : Pt) :
    ∀ (pre rest : List Pt), (pre ++ rest).getD pre.length d = rest.getD 0 d := by
  intro pre
  induction pre with
  | nil => intro rest; rfl
  | cons a pre ih =>
    intro rest
    simp only [List.cons_append, List.length_cons, List.getD_cons_succ]
    exact ih rest

theorem getD_of_append (d : Pt) :
    ∀ (L pre post : List Pt),
      (List.range' pre.length L.length).map (fun j => (pre ++ L ++ post).getD j d)
        = L := by
  intro L
  induction L with
  | nil => intro pre post; rfl
  | cons a L ih =>
    intro pre post
    rw [List.length_cons, List.range'_succ, List.map_cons]
    have hhead : (pre ++ (a :: L) ++ post).getD pre.length d = a := by
      rw [List.append_assoc, getD_append_left_length]
      rfl
    have htail : (List.range' (pre.length + 1) L.length).map
        (fun j => (pre ++ (a :: L) ++ post).getD j d) = L := by
      have h1 : pre.length + 1 = (pre ++ [a]).length := by simp
      have h2 : pre ++ (a :: L) ++ post = (pre ++ [a]) ++ L ++ post := by simp
      rw [h1, h2]
      exact ih (pre ++ [a]) post
    rw [hhead, htail]

theorem array_toList_map_getD (pts : Array Pt) :
    pts.toList = (List.range' 0 pts.size).map (fun j => pts.getD j (0, 0)) := by
  have h := getD_of_append (0, 0) pts.toList [] []
  simp only [List.length_nil, List.append_nil, List.nil_append] at h
  have hs : pts.size = pts.toList.length := rfl
  rw [hs]
  conv_lhs => rw [← h]
  refine List.map_congr_left ?_
  intro j _
  exact (array_getD_toList pts j (0, 0)).symm

theorem range'_split (a b c : ℕ) (h1 : a < b) (h2 : b < c) :
    List.range' (a + 1) (c - a - 1)
      = List.range' (a + 1) (b - a - 1) ++ b :: List.range' (b + 1) (c - b - 1) := by
  have e1 : c - a - 1 = (1 + (c - b - 1)) + (b - a - 1) := by omega
  rw [e1, ← List.range'_append_1]
  have e2 : a + 1 + (b - a - 1) = b := by omega
  have e3 : 1 + (c - b - 1) = (c - b - 1) + 1 := by omega
  rw [e2, e3, List.range'_succ]

/-! ## Tolerance-zero behaviour under `OffChord` -/

theorem simplifyDP_zero (pts : Array Pt) (hOff : OffChord pts) :
    ∀ d f l, l - f ≤ d → l < pts.size →
      simplifyDP pts f l 0
        = (List.range' (f + 1) (l - f - 1)).map (fun j => pts.getD j (0, 0)) := by
  intro d
  induction d with
  | zero =>
    intro f l h hl
    unfold simplifyDP
    rw [show l - f - 1 = 0 from by omega, show l - f = 0 from by omega]
    rfl
  | succ d ih =>
    intro f l h hl
    by_cases hfl : l ≤ f + 1
    · have hsplit : dpSplit pts f l = (0, 0) := by
        unfold dpSplit
        rw [show l - (f + 1) = 0 from by omega]
        rfl
      rw [simplifyDP_unfold, hsplit]
      rw [if_neg (by with_unfolding_all decide : ¬ ltSqrt 0 ((0 : ℚ), 0).1 = true)]
      rw [show l - f - 1 = 0 from by omega]
      rfl
    · push_neg at hfl
      have hj : 0 < chordDistSq pts f l (f + 1) := hOff l hl (f + 1) hfl f (by omega)
      have hpos : 0 < (dpSplit pts f l).1 :=
        lt_of_lt_of_le hj (dpSplit_ge pts f l (f + 1) (by omega) hfl)
      have hb : ltSqrt 0 (dpSplit pts f l).1 = true := by
        unfold ltSqrt
        rw [Bool.or_eq_true, decide_eq_true_eq, decide_eq_true_eq]
        right
        simpa using hpos
      have hmid := dpSplit_interior pts f l 0 (le_refl 0) hb
      rw [simplifyDP_unfold, if_pos hb, if_pos hmid]
      rw [ih f (dpSplit pts f l).2 (by omega) (by omega)]
      rw [ih (dpSplit pts f l).2 l (by omega) hl]
      rw [range'_split f (dpSplit pts f l).2 l hmid.1 hmid.2]
      rw [List.map_append, List.map_cons]

/-- Under `OffChord`, the tolerance-0 run reproduces the whole input. -/
theorem simplifyDouglasPeucker_zero (pts : Array Pt) (hOff : OffChord pts)
    (h3 : 3 ≤ pts.size) (hq : Bool) :
    simplifyDouglasPeucker pts 0 hq = pts.toList := by
  have hsz : ¬ pts.size < 3 := by omega
  have hdp : simplifyDP pts 0 (pts.size - 1) 0
      = (List.range' 1 (pts.size - 2)).map (fun j => pts.getD j (0, 0)) := by
    have h := simplifyDP_zero pts hOff (pts.size - 1) 0 (pts.size - 1) (by omega)
      (by omega)
    rw [h]
    rfl
  have hinterior_ne : (List.range' 1 (pts.size - 2)).map (fun j => pts.getD j (0, 0))
      ≠ [] := by
    simp only [ne_eq, List.map_eq_nil_iff]
    intro hnil
    have hlen := congrArg List.length hnil
    rw [List.length_range'] at hlen
    simp only [List.length_nil] at hlen
    omega
  have hlastpair : pts.getD (pts.size - 2) (0, 0) ≠ pts.getD (pts.size - 1) (0, 0) := by
    intro heq
    have h0 : 0 < chordDistSq pts (pts.size - 3) (pts.size - 1) (pts.size - 2) :=
      hOff (pts.size - 1) (by omega) (pts.size - 2) (by omega) (pts.size - 3) (by omega)
    unfold chordDistSq at h0
    rw [heq] at h0
    rw [perpendicularDistanceSq_right_self] at h0
    exact absurd h0 (lt_irrefl 0)
  rw [simplifyDouglasPeucker_eq pts 0 hq hsz, hdp]
  have hlastD : (pts.getD 0 (0, 0) :: (List.range' 1 (pts.size - 2)).map
      (fun j => pts.getD j (0, 0))).getLastD (0, 0) = pts.getD (pts.size - 2) (0, 0) := by
    have hr : List.range' 1 (pts.size - 2) = List.range' 1 (pts.size - 3) ++ [pts.size - 2] := by
      rw [show pts.size - 2 = 1 + (pts.size - 3) from by omega, ← List.range'_append_1,
        List.range'_one]
    rw [hr, List.map_append]
    simp only [List.map_cons, List.map_nil]
    rw [List.getLastD_eq_getLast?]
    rw [show (pts.getD 0 (0, 0) :: ((List.range' 1 (pts.size - 3)).map
        (fun j => pts.getD j (0, 0)) ++ [pts.getD (pts.size - 2) (0, 0)]))
        = (pts.getD 0 (0, 0) :: (List.range' 1 (pts.size - 3)).map
        (fun j => pts.getD j (0, 0))) ++ [pts.getD (pts.size - 2) (0, 0)] from rfl]
    rw [List.getLast?_concat]
    rfl
  rw [if_pos (by rw [hlastD]; exact hlastpair)]
  rw [array_toList_map_getD pts]
  have h1 : List.range' 0 pts.size = 0 :: List.range' 1 (pts.size - 1) := by
    conv_lhs => rw [show pts.size = (pts.size - 1) + 1 from by omega]
    rw [List.range'_succ]
  have h2 : List.range' 1 (pts.size - 1)
      = List.range' 1 (pts.size - 2) ++ [pts.size - 1] := by
    rw [show pts.size - 1 = 1 + (pts.size - 2) from by omega, ← List.range'_append_1,
      List.range'_one]
  rw [h1, h2]
  simp only [List.map_cons, List.map_append, List.map_nil, List.cons_append,
    List.nil_append, List.append_nil]

/-! ## C6 and C7 claim-support conclusions are stated in the claim section. -/

/-! ## Helpers for the idempotence argument -/

theorem getD_append_lt (l1 l2 : List Pt) (n : ℕ) (h : n < l1.length) (d : Pt) :
    (l1 ++ l2).getD n d = l1.getD n d := by
  rw [List.getD_eq_getElem?_getD, List.getD_eq_getElem?_getD,
    List.getElem?_append_left h]

theorem getD_mem_of_lt (l : List Pt) (n : ℕ) (h : n < l.length) (d : Pt) :
    l.getD n d ∈ l := by
  rw [List.getD_eq_getElem?_getD, List.getElem?_eq_getElem h]
  exact List.getElem_mem h

theorem map_range'_getD (F : ℕ → Pt) (S : List Pt) (s n k : ℕ)
    (h : (List.range' s n).map F = S) (hk : k < n) :
    S.getD k (0, 0) = F (s + k) := by
  rw [← h, List.getD_eq_getElem?_getD, List.getElem?_map,
    List.getElem?_range' s 1 hk]
  simp

theorem simplifyDP_of_no_interior (Q : Array Pt) (t : ℚ) (ht : 0 ≤ t)
    (f' l' : ℕ) (h : l' - f' - 1 = 0) : simplifyDP Q f' l' t = [] := by
  have hsplit : dpSplit Q f' l' = (0, 0) := by
    unfold dpSplit
    rw [show l' - (f' + 1) = 0 from by omega]
    rfl
  rw [simplifyDP_unfold, hsplit]
  rw [if_neg (fun hb => absurd (ltSqrt_pos t _ ht hb) (lt_irrefl 0))]

theorem simplifyDP_mem (pts : Array Pt) (t : ℚ) :
    ∀ d f l, l - f ≤ d → ∀ x ∈ simplifyDP pts f l t,
      ∃ j, f < j ∧ j < l ∧ x = pts.getD j (0, 0) := by
  intro d
  induction d with
  | zero =>
    intro f l hd x hx
    have hnil : simplifyDP pts f l t = [] := by
      unfold simplifyDP
      rw [show l - f = 0 from by omega]
      rfl
    rw [hnil] at hx
    exact absurd hx (List.not_mem_nil x)
  | succ d ih =>
    intro f l hd x hx
    rw [simplifyDP_unfold] at hx
    by_cases hb : ltSqrt t (dpSplit pts f l).1 = true
    · rw [if_pos hb] at hx
      by_cases hmid : f < (dpSplit pts f l).2 ∧ (dpSplit pts f l).2 < l
      · rw [if_pos hmid] at hx
        rcases List.mem_append.mp hx with hxl | hxr
        · obtain ⟨j, hj1, hj2, hj3⟩ := ih f (dpSplit pts f l).2 (by omega) x hxl
          exact ⟨j, hj1, by omega, hj3⟩
        · rcases List.mem_cons.mp hxr with hxm | hxr
          · exact ⟨(dpSplit pts f l).2, hmid.1, hmid.2, hxm⟩
          · obtain ⟨j, hj1, hj2, hj3⟩ := ih (dpSplit pts f l).2 l (by omega) x hxr
            exact ⟨j, by omega, hj2, hj3⟩
      · rw [if_neg hmid] at hx
        exact absurd hx (List.not_mem_nil x)
    · rw [if_neg hb] at hx
      exact absurd hx (List.not_mem_nil x)

theorem getD_append_ge (l1 l2 : List Pt) (n : ℕ) (h : l1.length ≤ n) (d : Pt) :
    (l1 ++ l2).getD n d = l2.getD (n - l1.length) d := by
  rw [List.getD_eq_getElem?_getD, List.getD_eq_getElem?_getD,
    List.getElem?_append_right h]

/-- Re-running the recursion on the survivors reproduces them: if the range
`[f', l']` of `Q` has the same endpoint values as the range `[f, l]` of `P`
and its interior is exactly the list `simplifyDP P f l t` pushed by the first
run, then the run on `Q` pushes that same list. -/
theorem simplifyDP_restart (P Q : Array Pt) (t : ℚ) (ht : 0 ≤ t) :
    ∀ d f l f' l', l - f ≤ d →
      Q.getD f' (0, 0) = P.getD f (0, 0) →
      Q.getD l' (0, 0) = P.getD l (0, 0) →
      (List.range' (f' + 1) (l' - f' - 1)).map (fun j => Q.getD j (0, 0))
        = simplifyDP P f l t →
      simplifyDP Q f' l' t = simplifyDP P f l t := by
  intro d
  induction d with
  | zero =>
    intro f l f' l' hd hf hl hint
    have hP : simplifyDP P f l t = [] := by
      unfold simplifyDP
      rw [show l - f = 0 from by omega]
      rfl
    rw [hP] at hint ⊢
    have hlen := congrArg List.length hint
    simp only [List.length_map, List.length_range', List.length_nil] at hlen
    exact simplifyDP_of_no_interior Q t ht f' l' hlen
  | succ d ih =>
    intro f l f' l' hd hf hl hint
    by_cases hb : ltSqrt t (dpSplit P f l).1 = true
    case neg =>
      have hP : simplifyDP P f l t = [] := by
        rw [simplifyDP_unfold, if_neg hb]
      rw [hP] at hint ⊢
      have hlen := congrArg List.length hint
      simp only [List.length_map, List.length_range', List.length_nil] at hlen
      exact simplifyDP_of_no_interior Q t ht f' l' hlen
    case pos =>
      have hVpos : 0 < (dpSplit P f l).1 := ltSqrt_pos t _ ht hb
      rcases dpSplit_cases P f l with hc | ⟨m, hm1, hm2, hV, hm4, _⟩
      · rw [hc] at hVpos
        exact absurd hVpos (lt_irrefl 0)
      have hmid : f < (dpSplit P f l).2 ∧ (dpSplit P f l).2 < l := by
        rw [hm4]
        exact ⟨hm1, hm2⟩
      have hP : simplifyDP P f l t
          = simplifyDP P f m t ++ P.getD m (0, 0) :: simplifyDP P m l t := by
        rw [simplifyDP_unfold, if_pos hb, if_pos hmid, hm4]
      have hlen : l' - f' - 1 = (simplifyDP P f l t).length := by
        have h0 := congrArg List.length hint
        simp only [List.length_map, List.length_range'] at h0
        exact h0
      have hSlen : (simplifyDP P f l t).length
          = (simplifyDP P f m t).length + 1 + (simplifyDP P m l t).length := by
        rw [hP]
        simp only [List.length_append, List.length_cons]
        omega
      have hQget : ∀ k, k < l' - f' - 1 →
          Q.getD (f' + 1 + k) (0, 0) = (simplifyDP P f l t).getD k (0, 0) := by
        intro k hk
        exact (map_range'_getD _ _ _ _ k hint (by omega)).symm
      have hQm' : Q.getD (f' + 1 + (simplifyDP P f m t).length) (0, 0)
          = P.getD m (0, 0) := by
        have h1 := hQget (simplifyDP P f m t).length (by omega)
        rw [hP, getD_append_left_length] at h1
        simpa using h1
      have hchord : ∀ k, k < l' - f' - 1 → chordDistSq Q f' l' (f' + 1 + k)
          = perpendicularDistanceSq ((simplifyDP P f l t).getD k (0, 0)).1
              ((simplifyDP P f l t).getD k (0, 0)).2
              (P.getD f (0, 0)).1 (P.getD f (0, 0)).2
              (P.getD l (0, 0)).1 (P.getD l (0, 0)).2 := by
        intro k hk
        unfold chordDistSq
        rw [hQget k hk, hf, hl]
      have hm'val : chordDistSq Q f' l' (f' + 1 + (simplifyDP P f m t).length)
          = (dpSplit P f l).1 := by
        rw [hchord _ (by omega)]
        have h1 : (simplifyDP P f l t).getD (simplifyDP P f m t).length (0, 0)
            = P.getD m (0, 0) := by
          rw [hP, getD_append_left_length]
          simp
        rw [h1, hV]
        rfl
      have hpick : dpSplit Q f' l'
          = ((dpSplit P f l).1, f' + 1 + (simplifyDP P f m t).length) := by
        have hp := dpSplit_pick Q f' l' (f' + 1 + (simplifyDP P f m t).length)
          (by omega) (by omega)
          (by rw [hm'val]; exact hVpos)
          (by
            intro j hj1 hj2
            obtain ⟨k, hk, rfl⟩ : ∃ k, k < (simplifyDP P f m t).length
                ∧ j = f' + 1 + k := ⟨j - f' - 1, by omega, by omega⟩
            rw [hchord k (by omega), hm'val]
            have hval : (simplifyDP P f l t).getD k (0, 0)
                = (simplifyDP P f m t).getD k (0, 0) := by
              rw [hP, getD_append_lt _ _ k hk]
            obtain ⟨jP, hjP1, hjP2, hjP3⟩ := simplifyDP_mem P t (m - f) f m
              (le_refl _) _ (getD_mem_of_lt _ k hk (0, 0))
            rw [hval, hjP3]
            have := dpSplit_before_lt P f l hVpos jP hjP1 (by omega)
            exact this)
          (by
            intro j hj1 hj2
            obtain ⟨k, hk1, hk2, rfl⟩ : ∃ k,
                (simplifyDP P f m t).length < k ∧ k < l' - f' - 1
                ∧ j = f' + 1 + k := ⟨j - f' - 1, by omega, by omega, by omega⟩
            rw [hchord k hk2, hm'val]
            have hval : (simplifyDP P f l t).getD k (0, 0)
                = (P.getD m (0, 0) :: simplifyDP P m l t).getD
                    (k - (simplifyDP P f m t).length) (0, 0) := by
              rw [hP, getD_append_ge _ _ k (by omega)]
            have hval2 : (P.getD m (0, 0) :: simplifyDP P m l t).getD
                (k - (simplifyDP P f m t).length) (0, 0)
                = (simplifyDP P m l t).getD
                    (k - (simplifyDP P f m t).length - 1) (0, 0) := by
              rw [show k - (simplifyDP P f m t).length
                  = (k - (simplifyDP P f m t).length - 1) + 1 from by omega]
              rw [List.getD_cons_succ]
              congr 1
            obtain ⟨jP, hjP1, hjP2, hjP3⟩ := simplifyDP_mem P t (l - m) m l
              (le_refl _) _ (getD_mem_of_lt _ (k - (simplifyDP P f m t).length - 1)
                (by omega) (0, 0))
            rw [hval, hval2, hjP3]
            have := dpSplit_ge P f l jP (by omega) hjP2
            exact this)
        rw [hp, hm'val]
      have h2 : (dpSplit Q f' l').2 = f' + 1 + (simplifyDP P f m t).length := by
        rw [hpick]
      have h1 : (dpSplit Q f' l').1 = (dpSplit P f l).1 := by
        rw [hpick]
      have hb' : ltSqrt t (dpSplit Q f' l').1 = true := by
        rw [h1]
        exact hb
      have hmid' : f' < (dpSplit Q f' l').2 ∧ (dpSplit Q f' l').2 < l' := by
        rw [h2]
        omega
      rw [simplifyDP_unfold Q f' l' t, if_pos hb', if_pos hmid', h2]
      have hsplit_rng : List.range' (f' + 1) (l' - f' - 1)
          = List.range' (f' + 1) (simplifyDP P f m t).length
            ++ List.range' (f' + 1 + (simplifyDP P f m t).length)
                (1 + (simplifyDP P m l t).length) := by
        rw [List.range'_append_1]
        congr 1
        omega
      rw [hsplit_rng, List.map_append, hP] at hint
      obtain ⟨hintL, hintRest⟩ := List.append_inj hint (by
        simp only [List.length_map, List.length_range'])
      have hintR : (List.range' (f' + 1 + (simplifyDP P f m t).length + 1)
          (simplifyDP P m l t).length).map (fun j => Q.getD j (0, 0))
          = simplifyDP P m l t := by
        rw [show 1 + (simplifyDP P m l t).length
            = (simplifyDP P m l t).length + 1 from by omega,
          List.range'_succ, List.map_cons] at hintRest
        injection hintRest
      have hL := ih f m f' (f' + 1 + (simplifyDP P f m t).length) (by omega) hf hQm'
        (by
          rw [show f' + 1 + (simplifyDP P f m t).length - f' - 1
              = (simplifyDP P f m t).length from by omega]
          exact hintL)
      have hR := ih m l (f' + 1 + (simplifyDP P f m t).length) l' (by omega) hQm' hl
        (by
          rw [show l' - (f' + 1 + (simplifyDP P f m t).length) - 1
              = (simplifyDP P m l t).length from by omega]
          exact hintR)
      rw [hL, hR, hQm', hP]

/-- With a nonnegative tolerance, the last point pushed by `simplifyDP` is
never (numerically) the range's right endpoint: it is a split point of some
subrange ending at `l`, whose deviation from a chord ending at `pts[l]` is
strictly positive, while the endpoint itself deviates by zero. -/
theorem simplifyDP_getLast_ne (pts : Array Pt) (t : ℚ) (ht : 0 ≤ t) :
    ∀ d f l, l - f ≤ d → ∀ x, (simplifyDP pts f l t).getLast? = some x →
      x ≠ pts.getD l (0, 0) := by
  intro d
  induction d with
  | zero =>
    intro f l hd x hx
    have hnil : simplifyDP pts f l t = [] := by
      unfold simplifyDP
      rw [show l - f = 0 from by omega]
      rfl
    rw [hnil] at hx
    exact absurd hx (by simp)
  | succ d ih =>
    intro f l hd x hx
    rw [simplifyDP_unfold] at hx
    by_cases hb : ltSqrt t (dpSplit pts f l).1 = true
    · rw [if_pos hb] at hx
      by_cases hmid : f < (dpSplit pts f l).2 ∧ (dpSplit pts f l).2 < l
      · rw [if_pos hmid] at hx
        rw [List.getLast?_append] at hx
        have hcons : (pts.getD (dpSplit pts f l).2 (0, 0)
            :: simplifyDP pts (dpSplit pts f l).2 l t).getLast? = some x := by
          rcases ho : (pts.getD (dpSplit pts f l).2 (0, 0)
              :: simplifyDP pts (dpSplit pts f l).2 l t).getLast? with _ | y
          · exact absurd ho (by simp)
          · rw [ho] at hx
            exact hx
        rcases hSR : simplifyDP pts (dpSplit pts f l).2 l t with _ | ⟨a, rest⟩
        · rw [hSR, List.getLast?_singleton, Option.some.injEq] at hcons
          have hVpos : 0 < (dpSplit pts f l).1 := ltSqrt_pos t _ ht hb
          rcases dpSplit_cases pts f l with hc | ⟨m, hm1, hm2, hV, hm4, _⟩
          · rw [hc] at hVpos
            exact absurd hVpos (lt_irrefl 0)
          intro hlast
          rw [hm4] at hcons
          have hcc : pts.getD m (0, 0) = pts.getD l (0, 0) := hcons.trans hlast
          unfold chordDistSq at hV
          rw [hcc, perpendicularDistanceSq_right_self] at hV
          rw [hV] at hVpos
          exact absurd hVpos (lt_irrefl 0)
        · rw [hSR, List.getLast?_cons_cons] at hcons
          exact ih (dpSplit pts f l).2 l (by omega) x (by rw [hSR]; exact hcons)
      · rw [if_neg hmid] at hx
        exact absurd hx (by simp)
    · rw [if_neg hb] at hx
      exact absurd hx (by simp)

/-! ## Characterizations of `nextLive` and `prevLive` -/

theorem filter_range_sorted (n : ℕ) (p : ℕ → Bool) :
    ((List.range n).filter p).Pairwise (· < ·) :=
  List.Pairwise.filter p (List.sorted_lt_range n)

theorem head?_filter_range_eq_some (n : ℕ) (p : ℕ → Bool) (j : ℕ) (hj : j < n)
    (hpj : p j = true) (hb : ∀ k, k < j → p k = false) :
    ((List.range n).filter p).head? = some j := by
  have h := List.range'_append_1 0 j (n - j)
  rw [Nat.zero_add] at h
  rw [show n - j + j = n from by omega] at h
  rw [List.range_eq_range', ← h, List.filter_append]
  have h1 : (List.range' 0 j).filter p = [] := by
    rw [List.filter_eq_nil_iff]
    intro a ha
    have := List.mem_range'_1.mp ha
    rw [hb a (by omega)]
    simp
  rw [h1, List.nil_append]
  have hstep : List.range' j (n - j) = j :: List.range' (j + 1) (n - j - 1) := by
    rw [show n - j = (n - j - 1) + 1 from by omega, List.range'_succ]
    rfl
  rw [hstep, List.filter_cons_of_pos hpj]
  rfl

theorem of_head?_filter_range (n : ℕ) (p : ℕ → Bool) (j : ℕ)
    (h : ((List.range n).filter p).head? = some j) :
    j < n ∧ p j = true ∧ ∀ k, k < j → p k = false := by
  obtain ⟨t, ht⟩ := List.head?_eq_some_iff.mp h
  have hmem : j ∈ (List.range n).filter p := by
    rw [ht]
    exact List.mem_cons_self j t
  rw [List.mem_filter, List.mem_range] at hmem
  refine ⟨hmem.1, hmem.2, ?_⟩
  intro k hk
  by_contra hpk
  have hpk' : p k = true := by
    revert hpk
    cases p k <;> simp
  have hkmem : k ∈ (List.range n).filter p := by
    rw [List.mem_filter, List.mem_range]
    exact ⟨by omega, hpk'⟩
  rw [ht] at hkmem
  rcases List.mem_cons.mp hkmem with rfl | hkt
  · omega
  · have hsorted := filter_range_sorted n p
    rw [ht] at hsorted
    have := (List.pairwise_cons.mp hsorted).1 k hkt
    omega

theorem getLast?_filter_range_eq_some (n : ℕ) (p : ℕ → Bool) (j : ℕ) (hj : j < n)
    (hpj : p j = true) (hb : ∀ k, j < k → k < n → p k = false) :
    ((List.range n).filter p).getLast? = some j := by
  have h := List.range'_append_1 0 (j + 1) (n - j - 1)
  rw [Nat.zero_add] at h
  rw [show n - j - 1 + (j + 1) = n from by omega] at h
  rw [List.range_eq_range', ← h, List.filter_append]
  have h2 : (List.range' (j + 1) (n - j - 1)).filter p = [] := by
    rw [List.filter_eq_nil_iff]
    intro a ha
    have := List.mem_range'_1.mp ha
    rw [hb a (by omega) (by omega)]
    simp
  rw [h2, List.append_nil]
  have hstep : List.range' 0 (j + 1) = List.range' 0 j ++ [j] := by
    have h3 := List.range'_append_1 0 j 1
    rw [Nat.zero_add] at h3
    rw [show (1 : ℕ) + j = j + 1 from by omega] at h3
    rw [← h3, List.range'_one]
  rw [hstep, List.filter_append, List.filter_cons_of_pos hpj, List.filter_nil]
  exact List.getLast?_concat _

theorem of_getLast?_filter_range (n : ℕ) (p : ℕ → Bool) (j : ℕ)
    (h : ((List.range n).filter p).getLast? = some j) :
    j < n ∧ p j = true ∧ ∀ k, j < k → k < n → p k = false := by
  obtain ⟨t, ht⟩ := List.getLast?_eq_some_iff.mp h
  have hmem : j ∈ (List.range n).filter p := by
    rw [ht]
    exact List.mem_append_right t (List.mem_cons_self j [])
  rw [List.mem_filter, List.mem_range] at hmem
  refine ⟨hmem.1, hmem.2, ?_⟩
  intro k hjk hkn
  by_contra hpk
  have hpk' : p k = true := by
    revert hpk
    cases p k <;> simp
  have hkmem : k ∈ (List.range n).filter p := by
    rw [List.mem_filter, List.mem_range]
    exact ⟨hkn, hpk'⟩
  rw [ht] at hkmem
  rcases List.mem_append.mp hkmem with hkt | hkj
  · have hsorted := filter_range_sorted n p
    rw [ht] at hsorted
    have := List.pairwise_append.mp hsorted
    have hlt := this.2.2 k hkt j (List.mem_cons_self j [])
    omega
  · rcases List.mem_cons.mp hkj with rfl | hk0
    · omega
    · exact absurd hk0 (List.not_mem_nil k)

theorem filter_range_eq_none_iff (n : ℕ) (p : ℕ → Bool) :
    ((List.range n).filter p).head? = none ↔ ∀ k, k < n → p k = false := by
  rw [List.head?_eq_none_iff, List.filter_eq_nil_iff]
  constructor
  · intro h k hk
    have := h k (List.mem_range.mpr hk)
    revert this
    cases p k <;> simp
  · intro h k hk
    rw [h k (List.mem_range.mp hk)]
    simp

theorem filter_range_getLast?_eq_none_iff (n : ℕ) (p : ℕ → Bool) :
    ((List.range n).filter p).getLast? = none ↔ ∀ k, k < n → p k = false := by
  rw [List.getLast?_eq_none_iff, List.filter_eq_nil_iff]
  constructor
  · intro h k hk
    have := h k (List.mem_range.mpr hk)
    revert this
    cases p k <;> simp
  · intro h k hk
    rw [h k (List.mem_range.mp hk)]
    simp

theorem nextLive_eq_some (n : ℕ) (areas : ℕ → Option (WithTop ℚ)) (i j : ℕ)
    (hj : j < n) (hlive : (areas j).isSome = true) (hij : i < j)
    (hbetween : ∀ k, i < k → k < j → (areas k).isSome = false) :
    nextLive n areas i = some j := by
  apply head?_filter_range_eq_some n _ j hj
  · rw [hlive]
    simp [hij]
  · intro k hk
    by_cases hik : i < k
    · rw [hbetween k hik hk]
      simp
    · simp [hik]

theorem of_nextLive_eq_some (n : ℕ) (areas : ℕ → Option (WithTop ℚ)) (i j : ℕ)
    (h : nextLive n areas i = some j) :
    j < n ∧ (areas j).isSome = true ∧ i < j ∧
      ∀ k, i < k → k < j → (areas k).isSome = false := by
  obtain ⟨hj, hpj, hb⟩ := of_head?_filter_range n _ j h
  rw [Bool.and_eq_true, decide_eq_true_eq] at hpj
  refine ⟨hj, hpj.1, hpj.2, ?_⟩
  intro k hik hkj
  have := hb k hkj
  rw [Bool.and_eq_false_iff] at this
  rcases this with h1 | h1
  · exact h1
  · rw [decide_eq_false_iff_not] at h1
    exact absurd hik h1

theorem nextLive_eq_none_iff (n : ℕ) (areas : ℕ → Option (WithTop ℚ)) (i : ℕ) :
    nextLive n areas i = none ↔
      ∀ k, i < k → k < n → (areas k).isSome = false := by
  rw [nextLive, filter_range_eq_none_iff]
  constructor
  · intro h k hik hkn
    have := h k hkn
    rw [Bool.and_eq_false_iff] at this
    rcases this with h1 | h1
    · exact h1
    · rw [decide_eq_false_iff_not] at h1
      exact absurd hik h1
  · intro h k hkn
    by_cases hik : i < k
    · rw [h k hik hkn]
      simp
    · simp [hik]

theorem prevLive_eq_some (n : ℕ) (areas : ℕ → Option (WithTop ℚ)) (i j : ℕ)
    (hj : j < n) (hlive : (areas j).isSome = true) (hij : j < i)
    (hbetween : ∀ k, j < k → k < i → (areas k).isSome = false) :
    prevLive n areas i = some j := by
  apply getLast?_filter_range_eq_some n _ j hj
  · rw [hlive]
    simp [hij]
  · intro k hjk hkn
    by_cases hki : k < i
    · rw [hbetween k hjk hki]
      simp
    · simp [hki]

theorem of_prevLive_eq_some (n : ℕ) (areas : ℕ → Option (WithTop ℚ)) (i j : ℕ)
    (h : prevLive n areas i = some j) :
    j < n ∧ (areas j).isSome = true ∧ j < i ∧
      ∀ k, j < k → k < i → k < n → (areas k).isSome = false := by
  obtain ⟨hj, hpj, hb⟩ := of_getLast?_filter_range n _ j h
  rw [Bool.and_eq_true, decide_eq_true_eq] at hpj
  refine ⟨hj, hpj.1, hpj.2, ?_⟩
  intro k hjk hki hkn
  have := hb k hjk hkn
  rw [Bool.and_eq_false_iff] at this
  rcases this with h1 | h1
  · exact h1
  · rw [decide_eq_false_iff_not] at h1
    exact absurd hki h1

theorem prevLive_eq_none_iff (n : ℕ) (areas : ℕ → Option (WithTop ℚ)) (i : ℕ) :
    prevLive n areas i = none ↔
      ∀ k, k < i → k < n → (areas k).isSome = false := by
  rw [prevLive, filter_range_getLast?_eq_none_iff]
  constructor
  · intro h k hki hkn
    have := h k hkn
    rw [Bool.and_eq_false_iff] at this
    rcases this with h1 | h1
    · exact h1
    · rw [decide_eq_false_iff_not] at h1
      exact absurd hki h1
  · intro h k hkn
    by_cases hki : k < i
    · rw [h k hki hkn]
      simp
    · simp [hki]

/-! ## Claim theorems -/

/-- C2 (code bug): the engine performs no radial-distance pre-pass at all —
the `highQuality` parameter is accepted and never read — so, contrary to the
claim, the output of `simplify` with `highQuality = false` *never* differs
from the output with `highQuality = true`, on any input whatsoever. -/
theorem c2_highQuality_never_affects_output :
    ∀ (pts : Array Pt) (tolerance : ℚ) (hq1 hq2 : Bool),
      simplifyDouglasPeucker pts tolerance hq1
        = simplifyDouglasPeucker pts tolerance hq2 ∧
      simplify pts tolerance hq1 none = simplify pts tolerance hq2 none :=
  fun _ _ _ _ => ⟨rfl, rfl⟩

/-- C5 counterexample: on the closed 4-point ring `c5ClosedInput` the
minimum effective area after initialization is `0`, attained at endpoint
index `0` — yet with `targetPoints = 3` the reduction loop removes nothing:
the output keeps all four points (plus the closing duplicate) instead of
reducing to 3 points by removing index 0. -/
theorem c5_counterexample :
    vwFindMin (vwInit c5ClosedInput 4 true).areas 4 = (((0 : ℚ) : WithTop ℚ), some 0) ∧
    simplifyVisvalingam c5ClosedInput (some 3) (1/2) true
      = [(1, 0), (2, 0), (2, 1), (0, 0), (1, 0)] :=
  ⟨by with_unfolding_all rfl, by with_unfolding_all rfl⟩

/-- C7 counterexample: at `tolerance = 0` the collinear interior point
`(1, 0)` of `c7Collinear` has deviation exactly `0`, which does not exceed
the tolerance, so Douglas-Peucker drops it: the output is *not* numerically
equal to the input. -/
theorem c7_counterexample :
    simplify c7Collinear 0 false none = [(0, 0), (2, 0)] ∧
    simplify c7Collinear 0 false none ≠ c7Collinear.toList :=
  ⟨by with_unfolding_all rfl, by with_unfolding_all decide⟩

/-- C9 counterexample: the deviation primitive returns the *distance*, not
the squared distance the claim describes.  At `p = (0,2)`, `a = (0,0)`,
`b = (1,0)` the clamped projection is `(0,0)`, the squared distance is `4`,
and the source's `perpendicularDistance` (which returns `Math.hypot`)
evaluates to `2 ≠ 4`. -/
theorem c9_counterexample :
    perpendicularDistance 0 2 0 0 1 0 = 2 ∧
    squaredDistanceToSegmentSpec (0, 2) (0, 0) (1, 0) = 4 ∧
    (2 : ℝ) ≠ 4 := by
  have hsq : perpendicularDistanceSq 0 2 0 0 1 0 = 4 := by with_unfolding_all rfl
  refine ⟨?_, by with_unfolding_all rfl, by norm_num⟩
  rw [perpendicularDistance, hsq]
  rw [show ((4 : ℚ) : ℝ) = 2 ^ 2 by norm_num]
  rw [Real.sqrt_sq (by norm_num)]

/-- C10 (confirmed): every input of fewer than 3 points is returned as an
unchanged copy by `simplify`, for every tolerance, `highQuality` and options
value; in particular `simplify([]) = []` and `simplify([1,2]) = [1,2]`. -/
theorem c10_short_input_passthrough :
    (∀ (pts : Array Pt) (tolerance : ℚ) (hq : Bool)
        (opts : Option SimplifyOptions),
      pts.size < 3 → simplify pts tolerance hq opts = pts.toList) ∧
    simplify #[] 1 false none = [] ∧
    simplify c10Single 1 false none = [(1, 2)] := by
  refine ⟨fun pts tolerance hq opts h => ?_, rfl, rfl⟩
  unfold simplify
  rw [if_pos h]

/-- Witness for `c10_short_input_passthrough`: its quantified part applied
to a concrete 1-point array, a nonstandard tolerance and a full options
object. -/
theorem c10_witness :
    (#[((3 : ℚ), (4 : ℚ))] : Array Pt).size < 3 ∧
    simplify #[((3 : ℚ), (4 : ℚ))] 9 true
      (some { algorithm := some Algorithm.visvalingam, closed := true })
      = [((3 : ℚ), (4 : ℚ))] :=
  ⟨by decide, c10_short_input_passthrough.1 _ 9 true _ (by decide)⟩

/-- C9 amended: the deviation primitive computes exactly the spec's clamped
projection, but returns the *square root* of the spec's
`squaredDistanceToSegment` value (the Euclidean distance), not the squared
distance itself; the `a = b` degenerate case likewise returns the square
root of `squaredDistance p a`. -/
theorem c9_amended (p a b : Pt) :
    perpendicularDistanceSq p.1 p.2 a.1 a.2 b.1 b.2
      = squaredDistanceToSegmentSpec p a b ∧
    perpendicularDistance p.1 p.2 a.1 a.2 b.1 b.2
      = Real.sqrt ((squaredDistanceToSegmentSpec p a b : ℚ) : ℝ) := by
  have hsq : perpendicularDistanceSq p.1 p.2 a.1 a.2 b.1 b.2
      = squaredDistanceToSegmentSpec p a b := by
    simp only [perpendicularDistanceSq, squaredDistanceToSegmentSpec,
      squaredDistance, hypotSq]
    by_cases h : b.1 - a.1 = 0 ∧ b.2 - a.2 = 0
    · have hab : a = b := by
        obtain ⟨h1, h2⟩ := h
        exact Prod.ext (by linarith) (by linarith)
      rw [if_pos h, if_pos hab]
    · have hab : ¬ a = b := by
        intro hab
        exact h ⟨by rw [hab]; ring, by rw [hab]; ring⟩
      rw [if_neg h, if_neg hab]
  exact ⟨hsq, by rw [perpendicularDistance, hsq]⟩


/-- C6 (confirmed): for Douglas-Peucker (and the classic `simplify` call),
raising the tolerance never raises the output point count.  Restricted to
nonnegative tolerances: the source's recursion does not terminate on
negative ones. -/
theorem c6_tolerance_monotone (pts : Array Pt) (t1 t2 : ℚ) (hq : Bool)
    (h0 : 0 ≤ t1) (h12 : t1 ≤ t2) :
    (simplifyDouglasPeucker pts t2 hq).length
      ≤ (simplifyDouglasPeucker pts t1 hq).length ∧
    (simplify pts t2 hq none).length ≤ (simplify pts t1 hq none).length := by
  refine ⟨simplifyDouglasPeucker_length_mono pts t1 t2 hq h12, ?_⟩
  by_cases hsz : pts.size < 3
  · unfold simplify
    rw [if_pos hsz, if_pos hsz]
  · rw [simplify_classic_eq pts t2 hq hsz, simplify_classic_eq pts t1 hq hsz]
    exact simplifyDouglasPeucker_length_mono pts t1 t2 hq h12

/-- Witness for `c6_tolerance_monotone`: tolerances `1 ≤ 2` on the collinear
triple. -/
theorem c6_witness :
    (simplify c7Collinear 2 false none).length
      ≤ (simplify c7Collinear 1 false none).length :=
  (c6_tolerance_monotone c7Collinear 1 2 false (by norm_num) (by norm_num)).2

/-- C7 amended: Douglas-Peucker at `tolerance = 0` returns the input
unchanged *provided* every interior point deviates strictly from every chord
spanning it (`OffChord`); without that proviso, zero-deviation (collinear)
points are removed even at tolerance 0 (see the counterexample).  The
second conjunct — the first and last input points always survive — holds for
every nonnegative tolerance and `highQuality` value, unconditionally. -/
theorem c7_amended (pts : Array Pt) (hOff : OffChord pts) (h3 : 3 ≤ pts.size) :
    (∀ hq, simplifyDouglasPeucker pts 0 hq = pts.toList) ∧
    (∀ (tol : ℚ) (hq : Bool), 0 ≤ tol →
      (simplifyDouglasPeucker pts tol hq).head? = some (pts.getD 0 (0, 0)) ∧
      (simplifyDouglasPeucker pts tol hq).getLast?
        = some (pts.getD (pts.size - 1) (0, 0))) :=
  ⟨fun hq => simplifyDouglasPeucker_zero pts hOff h3 hq,
   fun tol hq _ => ⟨simplifyDouglasPeucker_head pts tol hq (by omega),
     simplifyDouglasPeucker_last pts tol hq (by omega)⟩⟩

/-- Witness for `c7_amended`: the 4-point ring satisfies `OffChord`, and the
tolerance-0 run reproduces it. -/
theorem c7_amended_witness :
    OffChord c5ClosedInput ∧ 3 ≤ c5ClosedInput.size ∧
    simplifyDouglasPeucker c5ClosedInput 0 false = c5ClosedInput.toList :=
  ⟨by with_unfolding_all decide, by decide,
    (c7_amended c5ClosedInput (by with_unfolding_all decide) (by decide)).1 false⟩

/-- C8 (confirmed): Douglas-Peucker simplification through the classic
`simplify` call is idempotent at any fixed nonnegative tolerance:
re-simplifying the output changes nothing.  The scan of every range of the
re-run reproduces the original split (chords are identical and the
discarded points only lowered the maxima), so the recursion tree replays
itself. -/
theorem c8_idempotent (pts : Array Pt) (t : ℚ) (hq : Bool) (ht : 0 ≤ t) :
    simplify (simplify pts t hq none).toArray t hq none
      = simplify pts t hq none := by
  by_cases hsz : pts.size < 3
  · have hO : simplify pts t hq none = pts.toList := by
      unfold simplify
      rw [if_pos hsz]
    rw [hO]
    unfold simplify
    rw [if_pos (by simpa using hsz)]
  · rw [simplify_classic_eq pts t hq hsz, simplifyDouglasPeucker_eq pts t hq hsz]
    by_cases hpush : (pts.getD 0 (0, 0)
        :: simplifyDP pts 0 (pts.size - 1) t).getLastD (0, 0)
        ≠ pts.getD (pts.size - 1) (0, 0)
    · rw [if_pos hpush]
      by_cases hS : simplifyDP pts 0 (pts.size - 1) t = []
      · rw [hS]
        unfold simplify
        rw [if_pos (by simp)]
      · have hlen1 : 0 < (simplifyDP pts 0 (pts.size - 1) t).length :=
          List.length_pos.mpr hS
        have hsz2 : ¬ ((pts.getD 0 (0, 0) :: simplifyDP pts 0 (pts.size - 1) t)
            ++ [pts.getD (pts.size - 1) (0, 0)]).toArray.size < 3 := by
          simp only [Array.size_toArray, List.length_append, List.length_cons,
            List.length_nil]
          omega
        rw [simplify_classic_eq _ t hq hsz2, simplifyDouglasPeucker_eq _ t hq hsz2]
        have hQget : ∀ (j : ℕ) (dflt : Pt),
            ((pts.getD 0 (0, 0) :: simplifyDP pts 0 (pts.size - 1) t)
              ++ [pts.getD (pts.size - 1) (0, 0)]).toArray.getD j dflt
            = ((pts.getD 0 (0, 0) :: simplifyDP pts 0 (pts.size - 1) t)
              ++ [pts.getD (pts.size - 1) (0, 0)]).getD j dflt := by
          intro j dflt
          rw [array_getD_toList, Array.toList_toArray]
        have hget0 : ((pts.getD 0 (0, 0) :: simplifyDP pts 0 (pts.size - 1) t)
            ++ [pts.getD (pts.size - 1) (0, 0)]).toArray.getD 0 (0, 0)
            = pts.getD 0 (0, 0) := by
          rw [hQget]
          rfl
        have hgetlast : ((pts.getD 0 (0, 0) :: simplifyDP pts 0 (pts.size - 1) t)
            ++ [pts.getD (pts.size - 1) (0, 0)]).toArray.getD
              ((simplifyDP pts 0 (pts.size - 1) t).length + 1) (0, 0)
            = pts.getD (pts.size - 1) (0, 0) := by
          rw [hQget, List.cons_append, List.getD_cons_succ, getD_append_left_length]
          rfl
        have hinterior : (List.range' (0 + 1)
            ((simplifyDP pts 0 (pts.size - 1) t).length + 1 - 0 - 1)).map
              (fun j => ((pts.getD 0 (0, 0) :: simplifyDP pts 0 (pts.size - 1) t)
                ++ [pts.getD (pts.size - 1) (0, 0)]).toArray.getD j (0, 0))
            = simplifyDP pts 0 (pts.size - 1) t := by
          have hi0 := getD_of_append (0, 0) (simplifyDP pts 0 (pts.size - 1) t)
            [pts.getD 0 (0, 0)] [pts.getD (pts.size - 1) (0, 0)]
          simp only [List.length_cons, List.length_nil] at hi0
          rw [show (simplifyDP pts 0 (pts.size - 1) t).length + 1 - 0 - 1
              = (simplifyDP pts 0 (pts.size - 1) t).length from by omega]
          refine Eq.trans (List.map_congr_left fun j _ => ?_) hi0
          rw [hQget]
          rfl
        have hrestart := simplifyDP_restart pts _ t ht (pts.size - 1) 0 (pts.size - 1)
          0 ((simplifyDP pts 0 (pts.size - 1) t).length + 1) (le_refl _)
          hget0 hgetlast hinterior
        have hq1 : ((pts.getD 0 (0, 0) :: simplifyDP pts 0 (pts.size - 1) t)
            ++ [pts.getD (pts.size - 1) (0, 0)]).toArray.size - 1
            = (simplifyDP pts 0 (pts.size - 1) t).length + 1 := by
          simp only [Array.size_toArray, List.length_append, List.length_cons,
            List.length_nil]
          omega
        rw [hq1, hrestart, hget0, hgetlast, if_pos hpush]
    · push_neg at hpush
      rw [if_neg (not_ne_iff.mpr hpush)]
      by_cases hS : simplifyDP pts 0 (pts.size - 1) t = []
      · rw [hS]
        unfold simplify
        rw [if_pos (by simp)]
      · exfalso
        have hgl : (simplifyDP pts 0 (pts.size - 1) t).getLast?
            = some ((simplifyDP pts 0 (pts.size - 1) t).getLast hS) :=
          List.getLast?_eq_getLast _ hS
        have hB := simplifyDP_getLast_ne pts t ht (pts.size - 1) 0 (pts.size - 1)
          (le_refl _) _ hgl
        have h1 : (pts.getD 0 (0, 0)
            :: simplifyDP pts 0 (pts.size - 1) t).getLastD (0, 0)
            = (simplifyDP pts 0 (pts.size - 1) t).getLast hS := by
          rw [List.getLastD_cons, List.getLastD_eq_getLast?, hgl, Option.getD_some]
        exact hB (h1.symm.trans hpush)

/-- Witness for `c8_idempotent` at tolerance 1 on a concrete polyline. -/
theorem c8_witness :
    simplify (simplify c7Collinear 1 false none).toArray 1 false none
      = simplify c7Collinear 1 false none :=
  c8_idempotent c7Collinear 1 false (by norm_num)

/-! ## The minimum scan of the Visvalingam reduction loop -/

theorem vwFindMinGo_fst_le (areas : ℕ → Option (WithTop ℚ)) :
    ∀ cnt i a mi, (vwFindMinGo areas i cnt a mi).1 ≤ a := by
  intro cnt
  induction cnt with
  | zero => intro i a mi; exact le_refl a
  | succ cnt ih =>
    intro i a mi
    simp only [vwFindMinGo]
    split
    · split
      · exact le_of_lt (lt_of_le_of_lt (ih _ _ _) (by assumption))
      · exact ih _ _ _
    · exact ih _ _ _

theorem vwFindMinGo_cases (areas : ℕ → Option (WithTop ℚ)) :
    ∀ cnt i a mi, vwFindMinGo areas i cnt a mi = (a, mi) ∨
      ∃ m, i ≤ m ∧ m < i + cnt ∧
        areas m = some (vwFindMinGo areas i cnt a mi).1 ∧
        (vwFindMinGo areas i cnt a mi).2 = some m ∧
        (vwFindMinGo areas i cnt a mi).1 < a := by
  intro cnt
  induction cnt with
  | zero => intro i a mi; exact Or.inl rfl
  | succ cnt ih =>
    intro i a mi
    simp only [vwFindMinGo]
    split
    · rename_i a' ha'
      split
      · rename_i hlt
        rcases ih (i + 1) a' (some i) with h | ⟨m, hm1, hm2, hm3, hm4, hm5⟩
        · refine Or.inr ⟨i, le_refl i, by omega, ?_, ?_, ?_⟩
          · rw [h]; exact ha'
          · rw [h]
          · rw [h]; exact hlt
        · exact Or.inr ⟨m, by omega, by omega, hm3, hm4, lt_trans hm5 hlt⟩
      · rcases ih (i + 1) a mi with h | ⟨m, hm1, hm2, hm3, hm4, hm5⟩
        · exact Or.inl h
        · exact Or.inr ⟨m, by omega, by omega, hm3, hm4, hm5⟩
    · rcases ih (i + 1) a mi with h | ⟨m, hm1, hm2, hm3, hm4, hm5⟩
      · exact Or.inl h
      · exact Or.inr ⟨m, by omega, by omega, hm3, hm4, hm5⟩

theorem vwFindMinGo_le (areas : ℕ → Option (WithTop ℚ)) :
    ∀ cnt i a mi j, i ≤ j → j < i + cnt → ∀ v, areas j = some v →
      (vwFindMinGo areas i cnt a mi).1 ≤ v := by
  intro cnt
  induction cnt with
  | zero => intro i a mi j h1 h2; omega
  | succ cnt ih =>
    intro i a mi j h1 h2 v hv
    simp only [vwFindMinGo]
    rcases Nat.eq_or_lt_of_le h1 with rfl | hlt
    · rw [hv]
      split
      · rename_i a' heq
        injection heq with hva
        subst hva
        split
        · exact vwFindMinGo_fst_le areas cnt _ _ _
        · rename_i hnlt
          push_neg at hnlt
          exact le_trans (vwFindMinGo_fst_le areas cnt _ _ _) hnlt
      · rename_i heq
        exact absurd heq (by simp)
    · split
      · split
        · exact ih _ _ _ j (by omega) (by omega) v hv
        · exact ih _ _ _ j (by omega) (by omega) v hv
      · exact ih _ _ _ j (by omega) (by omega) v hv

theorem vwFindMin_le (areas : ℕ → Option (WithTop ℚ)) (n j : ℕ) (v : WithTop ℚ)
    (hj : j < n) (hv : areas j = some v) : (vwFindMin areas n).1 ≤ v :=
  vwFindMinGo_le areas n 0 ⊤ none j (Nat.zero_le j) (by omega) v hv

/-- If any live finite area exists, the scan returns the index of a live node
holding the minimum, and that minimum is at most any live value. -/
theorem vwFindMin_spec (areas : ℕ → Option (WithTop ℚ)) (n j : ℕ) (v : WithTop ℚ)
    (hj : j < n) (hv : areas j = some v) (hfin : v < ⊤) :
    ∃ m, m < n ∧ areas m = some (vwFindMin areas n).1 ∧
      (vwFindMin areas n).2 = some m := by
  have hle : (vwFindMin areas n).1 ≤ v := vwFindMin_le areas n j v hj hv
  rcases vwFindMinGo_cases areas n 0 ⊤ none with h | ⟨m, _, hm2, hm3, hm4, _⟩
  · exfalso
    have : (vwFindMin areas n).1 = ⊤ := by rw [vwFindMin, h]
    rw [this] at hle
    exact absurd (lt_of_le_of_lt hle hfin) (lt_irrefl ⊤)
  · exact ⟨m, by omega, hm3, hm4⟩

/-! ## Endpoint liveness through the reduction loop -/

theorem update_some_ne_none (f : ℕ → Option (WithTop ℚ)) (j i : ℕ)
    (v : WithTop ℚ) (hi : f i ≠ none) :
    Function.update f j (some v) i ≠ none := by
  by_cases h : i = j
  · subst h
    rw [Function.update_same]
    exact Option.some_ne_none v
  · rw [Function.update_noteq h]
    exact hi

/-- A splice retires only `minIdx`: every other non-retired node stays
non-retired (the two neighbor recomputations write `some` values). -/
theorem vwRemove_areas_ne_none (pts : Array Pt) (n : ℕ) (st : VWState)
    (minIdx pPrev pNext i : ℕ) (him : i ≠ minIdx)
    (hi : st.areas i ≠ none) :
    (vwRemove pts n st minIdx pPrev pNext).areas i ≠ none := by
  have h1 : Function.update st.areas minIdx none i ≠ none := by
    rw [Function.update_noteq him]
    exact hi
  simp only [vwRemove]
  split_ifs
  all_goals repeat apply update_some_ne_none
  all_goals exact h1

/-- The reduction loop never retires node `0` or node `n - 1`, whatever the
target, tolerance, and fuel: the `minIdx === 0 || minIdx === n - 1` check
breaks out instead of removing an endpoint. -/
theorem vwLoopGo_endpoints_live (pts : Array Pt) (n : ℕ) (tp : Option ℤ)
    (tol : ℚ) :
    ∀ fuel st, st.areas 0 ≠ none → st.areas (n - 1) ≠ none →
      (vwLoopGo pts n tp tol fuel st).areas 0 ≠ none ∧
      (vwLoopGo pts n tp tol fuel st).areas (n - 1) ≠ none := by
  intro fuel
  induction fuel with
  | zero => intro st h0 h1; exact ⟨h0, h1⟩
  | succ fuel ih =>
    intro st h0 h1
    simp only [vwLoopGo]
    split
    · split
      · exact ⟨h0, h1⟩
      · split
        · exact ⟨h0, h1⟩
        · rename_i minIdx hmi
          split
          · exact ⟨h0, h1⟩
          · rename_i hne
            push_neg at hne
            split
            · apply ih
              · exact vwRemove_areas_ne_none pts n st minIdx _ _ 0
                  (fun h => hne.1 h.symm) h0
              · exact vwRemove_areas_ne_none pts n st minIdx _ _ (n - 1)
                  (fun h => hne.2 h.symm) h1
            · exact ⟨h0, h1⟩
            · exact ⟨h0, h1⟩
    · exact ⟨h0, h1⟩

/-- C5, amended: with `closed = true` and `n > 3` the two endpoints do
receive the finite wrap-around triangle areas at initialization, exactly as
the claim describes — but they are never *removable*: the reduction loop's
`minIdx === 0 || minIdx === n - 1` check breaks out of the loop instead of
splicing an endpoint, so nodes `0` and `n - 1` survive every run of the
loop (see `c5_counterexample` for a concrete closed ring where this halts
the reduction with the minimum area sitting at index 0). -/
theorem c5_amended (pts : Array Pt) (n : ℕ) (hn : 3 < n) (tp : Option ℤ)
    (tol : ℚ) :
    ((vwInit pts n true).areas 0 =
      some ((triangleArea (pts.getD (n - 1) (0, 0)).1 (pts.getD (n - 1) (0, 0)).2
        (pts.getD 0 (0, 0)).1 (pts.getD 0 (0, 0)).2
        (pts.getD 1 (0, 0)).1 (pts.getD 1 (0, 0)).2 : ℚ) : WithTop ℚ)) ∧
    ((vwInit pts n true).areas (n - 1) =
      some ((triangleArea (pts.getD (n - 2) (0, 0)).1 (pts.getD (n - 2) (0, 0)).2
        (pts.getD (n - 1) (0, 0)).1 (pts.getD (n - 1) (0, 0)).2
        (pts.getD 0 (0, 0)).1 (pts.getD 0 (0, 0)).2 : ℚ) : WithTop ℚ)) ∧
    ∀ fuel st, st.areas 0 ≠ none → st.areas (n - 1) ≠ none →
      (vwLoopGo pts n tp tol fuel st).areas 0 ≠ none ∧
      (vwLoopGo pts n tp tol fuel st).areas (n - 1) ≠ none := by
  refine ⟨?_, ?_, vwLoopGo_endpoints_live pts n tp tol⟩
  · simp only [vwInit]
    rw [if_pos ⟨trivial, hn⟩]
    show Function.update (Function.update _ 0 _) (n - 1) _ 0 = _
    rw [Function.update_noteq (by omega : (0 : ℕ) ≠ n - 1), Function.update_same]
  · simp only [vwInit]
    rw [if_pos ⟨trivial, hn⟩]
    show Function.update _ (n - 1) _ (n - 1) = _
    rw [Function.update_same]

theorem c5_amended_witness :
    (vwLoopGo c5ClosedInput 4 (some 3) 0 4 (vwInit c5ClosedInput 4 true)).areas 0
      ≠ none ∧
    (vwLoopGo c5ClosedInput 4 (some 3) 0 4 (vwInit c5ClosedInput 4 true)).areas (4 - 1)
      ≠ none :=
  (c5_amended c5ClosedInput 4 (by decide) (some 3) 0).2.2 4
    (vwInit c5ClosedInput 4 true)
    (by with_unfolding_all decide) (by with_unfolding_all decide)

/-! ## Effect of a splice on the `areas` table -/

theorem guard_update_isSome (f : ℕ → Option (WithTop ℚ)) (j : ℕ)
    (v : WithTop ℚ) (c : Prop) [Decidable c] (i : ℕ) :
    ((if f j ≠ none ∧ c then Function.update f j (some v) else f) i).isSome
      = (f i).isSome := by
  split_ifs with h
  · by_cases hij : i = j
    · subst hij
      rw [Function.update_same, Option.isSome_some]
      symm
      rw [Option.isSome_iff_ne_none]
      exact h.1
    · rw [Function.update_noteq hij]
  · rfl

/-- A splice retires exactly `minIdx`: liveness of every node `i` after
`vwRemove` is liveness before, conjoined with `i ≠ minIdx` (the two guarded
neighbor recomputations only overwrite already-live entries with `some`). -/
theorem vwRemove_areas_isSome (pts : Array Pt) (n : ℕ) (st : VWState)
    (m pPrev pNext i : ℕ) :
    ((vwRemove pts n st m pPrev pNext).areas i).isSome =
      ((st.areas i).isSome && decide (i ≠ m)) := by
  simp only [vwRemove]
  rw [guard_update_isSome, guard_update_isSome]
  by_cases him : i = m
  · subst him
    rw [Function.update_same]
    simp
  · rw [Function.update_noteq him]
    simp [him]

/-- A splice leaves the area of any node other than `minIdx` and the two
designated neighbors unchanged. -/
theorem vwRemove_areas_untouched (pts : Array Pt) (n : ℕ) (st : VWState)
    (m pPrev pNext i : ℕ) (hi1 : i ≠ m) (hi2 : i ≠ pPrev) (hi3 : i ≠ pNext) :
    (vwRemove pts n st m pPrev pNext).areas i = st.areas i := by
  simp only [vwRemove]
  split_ifs <;>
    repeat
      first
      | rw [Function.update_noteq hi3]
      | rw [Function.update_noteq hi2]
      | rw [Function.update_noteq hi1]

/-- Node `0` is never recomputed by a splice (the `pPrev !== 0` guard),
so its area survives any removal of an `m ≠ 0` with `pNext ≠ 0`. -/
theorem vwRemove_areas_at_zero (pts : Array Pt) (n : ℕ) (st : VWState)
    (m pPrev pNext : ℕ) (hm : m ≠ 0) (hpN : pNext ≠ 0) :
    (vwRemove pts n st m pPrev pNext).areas 0 = st.areas 0 := by
  by_cases hpP : pPrev = 0
  · subst hpP
    simp only [vwRemove]
    have hc1 : ¬(Function.update st.areas m none 0 ≠ none ∧ (0 : ℕ) ≠ 0) :=
      fun h => h.2 rfl
    rw [if_neg hc1]
    split_ifs with h
    · rw [Function.update_noteq (Ne.symm hpN), Function.update_noteq (Ne.symm hm)]
    · rw [Function.update_noteq (Ne.symm hm)]
  · exact vwRemove_areas_untouched pts n st m pPrev pNext 0
      (Ne.symm hm) (Ne.symm hpP) (Ne.symm hpN)

/-- Node `n - 1` is never recomputed by a splice (the `pNext !== n - 1`
guard), so its area survives any removal of an `m ≠ n - 1` with
`pPrev ≠ n - 1`. -/
theorem vwRemove_areas_at_last (pts : Array Pt) (n : ℕ) (st : VWState)
    (m pPrev pNext : ℕ) (hm : m ≠ n - 1) (hpP : pPrev ≠ n - 1) :
    (vwRemove pts n st m pPrev pNext).areas (n - 1) = st.areas (n - 1) := by
  by_cases hpN : pNext = n - 1
  · subst hpN
    simp only [vwRemove]
    rw [if_neg (not_and_of_not_right _ (fun h => h rfl))]
    split_ifs with h
    · rw [Function.update_noteq (Ne.symm hpP), Function.update_noteq (Ne.symm hm)]
    · rw [Function.update_noteq (Ne.symm hm)]
  · exact vwRemove_areas_untouched pts n st m pPrev pNext (n - 1)
      (Ne.symm hm) (Ne.symm hpP) (Ne.symm hpN)

/-- After a splice the area of `pPrev` is either unchanged or an explicitly
finite recomputed triangle area. -/
theorem vwRemove_areas_at_pPrev (pts : Array Pt) (n : ℕ) (st : VWState)
    (m pPrev pNext : ℕ) (h1 : pNext ≠ pPrev) (h2 : pPrev ≠ m) :
    (vwRemove pts n st m pPrev pNext).areas pPrev = st.areas pPrev ∨
      ∃ q : ℚ, (vwRemove pts n st m pPrev pNext).areas pPrev
        = some ((q : ℚ) : WithTop ℚ) := by
  simp only [vwRemove]
  split_ifs
  · rw [Function.update_noteq (Ne.symm h1), Function.update_same]
    exact Or.inr ⟨_, rfl⟩
  · rw [Function.update_same]
    exact Or.inr ⟨_, rfl⟩
  · rw [Function.update_noteq (Ne.symm h1), Function.update_noteq h2]
    exact Or.inl rfl
  · rw [Function.update_noteq h2]
    exact Or.inl rfl

/-- After a splice the area of `pNext` is either unchanged or an explicitly
finite recomputed triangle area. -/
theorem vwRemove_areas_at_pNext (pts : Array Pt) (n : ℕ) (st : VWState)
    (m pPrev pNext : ℕ) (h1 : pNext ≠ pPrev) (h2 : pNext ≠ m) :
    (vwRemove pts n st m pPrev pNext).areas pNext = st.areas pNext ∨
      ∃ q : ℚ, (vwRemove pts n st m pPrev pNext).areas pNext
        = some ((q : ℚ) : WithTop ℚ) := by
  simp only [vwRemove]
  split_ifs
  · rw [Function.update_same]
    exact Or.inr ⟨_, rfl⟩
  · rw [Function.update_noteq h1, Function.update_noteq h2]
    exact Or.inl rfl
  · rw [Function.update_same]
    exact Or.inr ⟨_, rfl⟩
  · rw [Function.update_noteq h2]
    exact Or.inl rfl

theorem vwRemove_next (pts : Array Pt) (n : ℕ) (st : VWState)
    (m pPrev pNext : ℕ) :
    (vwRemove pts n st m pPrev pNext).next
      = Function.update st.next pPrev (some pNext) := rfl

theorem vwRemove_prev (pts : Array Pt) (n : ℕ) (st : VWState)
    (m pPrev pNext : ℕ) :
    (vwRemove pts n st m pPrev pNext).prev
      = Function.update st.prev pNext (some pPrev) := rfl

theorem vwRemove_remaining (pts : Array Pt) (n : ℕ) (st : VWState)
    (m pPrev pNext : ℕ) :
    (vwRemove pts n st m pPrev pNext).remaining = st.remaining - 1 := rfl

/-- The crucial step property: splicing out an interior live node, at the
neighbors the invariant links designate, preserves the loop invariant. -/
theorem vwRemove_inv (pts : Array Pt) (n : ℕ) (st : VWState) (hinv : VWInv n st)
    (m pPrev pNext : ℕ) (hm0 : m ≠ 0) (hmL : m ≠ n - 1) (hmn : m < n)
    (hmlive : (st.areas m).isSome = true)
    (hp : st.prev m = some pPrev) (hnx : st.next m = some pNext) :
    VWInv n (vwRemove pts n st m pPrev pNext) := by
  have hpl : prevLive n st.areas m = some pPrev := by
    rw [← hinv.prevEq m hmn hmlive]; exact hp
  have hnl : nextLive n st.areas m = some pNext := by
    rw [← hinv.nextEq m hmn hmlive]; exact hnx
  obtain ⟨hpn, hplive, hplt, hpbet⟩ := of_prevLive_eq_some n st.areas m pPrev hpl
  obtain ⟨hqn, hqlive, hqlt, hqbet⟩ := of_nextLive_eq_some n st.areas m pNext hnl
  have hmlt : m < n - 1 := by omega
  have hSome : ∀ j, ((vwRemove pts n st m pPrev pNext).areas j).isSome
      = ((st.areas j).isSome && decide (j ≠ m)) :=
    fun j => vwRemove_areas_isSome pts n st m pPrev pNext j
  have hlive' : ∀ j, ((vwRemove pts n st m pPrev pNext).areas j).isSome = true
      ↔ ((st.areas j).isSome = true ∧ j ≠ m) := by
    intro j
    rw [hSome j, Bool.and_eq_true, decide_eq_true_eq]
  have hdead' : ∀ j, (st.areas j).isSome = false →
      ((vwRemove pts n st m pPrev pNext).areas j).isSome = false := by
    intro j hj
    rw [hSome j, hj, Bool.false_and]
  have hgap : ∀ k, pPrev < k → k < pNext → k ≠ m →
      (st.areas k).isSome = false := by
    intro k hk1 hk2 hkm
    rcases Nat.lt_or_ge k m with h | h
    · exact hpbet k hk1 h (by omega)
    · exact hqbet k (by omega) hk2
  have hgap' : ∀ k, pPrev < k → k < pNext →
      ((vwRemove pts n st m pPrev pNext).areas k).isSome = false := by
    intro k hk1 hk2
    by_cases hkm : k = m
    · rw [hkm, hSome m]
      simp
    · exact hdead' k (hgap k hk1 hk2 hkm)
  refine ⟨?_, ?_, ?_, ?_, ?_, ?_, ?_⟩
  · rw [vwRemove_areas_at_zero pts n st m pPrev pNext hm0 (by omega)]
    exact hinv.area0
  · rw [vwRemove_areas_at_last pts n st m pPrev pNext hmL (by omega)]
    exact hinv.areaLast
  · intro i hi
    rw [vwRemove_areas_untouched pts n st m pPrev pNext i (by omega) (by omega)
      (by omega)]
    exact hinv.areaHigh i hi
  · intro i h0i hiL hlive
    obtain ⟨hsl, him⟩ := (hlive' i).mp hlive
    by_cases hip : i = pPrev
    · rcases vwRemove_areas_at_pPrev pts n st m pPrev pNext (by omega) (by omega)
        with h | ⟨q, h⟩
      · rw [hip, h]
        exact hinv.areaFin pPrev (by omega) (by omega) (by rw [← hip]; exact hsl)
      · rw [hip]
        exact ⟨q, h⟩
    · by_cases hiq : i = pNext
      · rcases vwRemove_areas_at_pNext pts n st m pPrev pNext (by omega) (by omega)
          with h | ⟨q, h⟩
        · rw [hiq, h]
          exact hinv.areaFin pNext (by omega) (by omega) (by rw [← hiq]; exact hsl)
        · rw [hiq]
          exact ⟨q, h⟩
      · rw [vwRemove_areas_untouched pts n st m pPrev pNext i him hip hiq]
        exact hinv.areaFin i h0i hiL hsl
  · intro i hi hlive
    obtain ⟨hsl, him⟩ := (hlive' i).mp hlive
    rw [vwRemove_next]
    by_cases hip : i = pPrev
    · rw [hip, Function.update_same]
      symm
      apply nextLive_eq_some n _ pPrev pNext hqn
        ((hlive' pNext).mpr ⟨hqlive, by omega⟩) (by omega)
      exact hgap'
    · rw [Function.update_noteq hip, hinv.nextEq i hi hsl]
      rcases hni : nextLive n st.areas i with _ | j
      · symm
        rw [nextLive_eq_none_iff]
        intro k h1 h2
        exact hdead' k ((nextLive_eq_none_iff n st.areas i).mp hni k h1 h2)
      · obtain ⟨hjn, hjlive, hij, hbet⟩ := of_nextLive_eq_some n st.areas i j hni
        have hjm : j ≠ m := by
          intro hjm
          rw [hjm] at hij hbet
          have hthis : prevLive n st.areas m = some i :=
            prevLive_eq_some n st.areas m i hi hsl hij hbet
          rw [hthis] at hpl
          injection hpl with hpl'
          exact hip hpl'
        symm
        apply nextLive_eq_some n _ i j hjn ((hlive' j).mpr ⟨hjlive, hjm⟩) hij
        intro k hk1 hk2
        exact hdead' k (hbet k hk1 hk2)
  · intro i hi hlive
    obtain ⟨hsl, him⟩ := (hlive' i).mp hlive
    rw [vwRemove_prev]
    by_cases hiq : i = pNext
    · rw [hiq, Function.update_same]
      symm
      apply prevLive_eq_some n _ pNext pPrev hpn
        ((hlive' pPrev).mpr ⟨hplive, by omega⟩) (by omega)
      exact hgap'
    · rw [Function.update_noteq hiq, hinv.prevEq i hi hsl]
      rcases hni : prevLive n st.areas i with _ | j
      · symm
        rw [prevLive_eq_none_iff]
        intro k h1 h2
        exact hdead' k ((prevLive_eq_none_iff n st.areas i).mp hni k h1 h2)
      · obtain ⟨hjn, hjlive, hji, hbet⟩ := of_prevLive_eq_some n st.areas i j hni
        have hjm : j ≠ m := by
          intro hjm
          rw [hjm] at hji hbet
          have hthis : nextLive n st.areas m = some i :=
            nextLive_eq_some n st.areas m i hi hsl hji
              (fun k hk1 hk2 => hbet k hk1 hk2 (by omega))
          rw [hthis] at hnl
          injection hnl with hnl'
          exact hiq hnl'
        symm
        apply prevLive_eq_some n _ i j hjn ((hlive' j).mpr ⟨hjlive, hjm⟩) hji
        intro k hk1 hk2
        exact hdead' k (hbet k hk1 hk2 (by omega))
  · have hmem : m ∈ liveIdx n st.areas := by
      rw [liveIdx, List.mem_filter, List.mem_range]
      exact ⟨hmn, hmlive⟩
    have hnd : (liveIdx n st.areas).Nodup :=
      List.Nodup.filter _ (List.nodup_range n)
    have h1 : liveIdx n (vwRemove pts n st m pPrev pNext).areas
        = (liveIdx n st.areas).filter (fun x => x != m) := by
      rw [liveIdx, liveIdx, List.filter_filter]
      refine List.filter_congr (fun x _ => ?_)
      rw [hSome x, Bool.and_comm]
      congr 1
      by_cases h : x = m <;> simp [h]
    have h2 : (liveIdx n st.areas).filter (fun x => x != m)
        = (liveIdx n st.areas).erase m :=
      (List.Nodup.erase_eq_filter hnd m).symm
    rw [vwRemove_remaining, hinv.remEq, h1, h2, List.length_erase_of_mem hmem]

/-! ## The initial state and the reduction loop preserve the invariant -/

theorem vwInit_inv (pts : Array Pt) (n : ℕ) (hn : 3 ≤ n) :
    VWInv n (vwInit pts n false) := by
  have hc : ¬(((false : Bool) : Prop) ∧ 3 < n) := fun h => by simp at h
  have hA : ∀ i, (vwInit pts n false).areas i =
      if i < n then
        if 1 ≤ i ∧ i + 1 < n then
          some ((triangleArea (pts.getD (i - 1) (0, 0)).1 (pts.getD (i - 1) (0, 0)).2
            (pts.getD i (0, 0)).1 (pts.getD i (0, 0)).2
            (pts.getD (i + 1) (0, 0)).1 (pts.getD (i + 1) (0, 0)).2 : ℚ) : WithTop ℚ)
        else some ⊤
      else none := by
    intro i
    simp only [vwInit]
    rw [if_neg hc]
  have hP : ∀ i, (vwInit pts n false).prev i =
      (if i = 0 ∨ n ≤ i then none else some (i - 1)) := by
    intro i
    simp only [vwInit]
    rw [if_neg hc]
  have hN : ∀ i, (vwInit pts n false).next i =
      (if i + 1 < n then some (i + 1) else none) := by
    intro i
    simp only [vwInit]
    rw [if_neg hc]
  have hR : (vwInit pts n false).remaining = n := by
    simp only [vwInit]
    rw [if_neg hc]
  have hlive : ∀ i, i < n → ((vwInit pts n false).areas i).isSome = true := by
    intro i hi
    rw [hA i, if_pos hi]
    split <;> rfl
  refine ⟨?_, ?_, ?_, ?_, ?_, ?_, ?_⟩
  · rw [hA 0, if_pos (by omega), if_neg (by omega)]
  · rw [hA (n - 1), if_pos (by omega), if_neg (by omega)]
  · intro i hi
    rw [hA i, if_neg (by omega)]
  · intro i h0i hiL _
    rw [hA i, if_pos (by omega), if_pos (by omega)]
    exact ⟨_, rfl⟩
  · intro i hi _
    rw [hN i]
    by_cases h : i + 1 < n
    · rw [if_pos h]
      symm
      apply nextLive_eq_some n _ i (i + 1) h (hlive _ h) (by omega)
      intro k hk1 hk2
      exact absurd hk2 (by omega)
    · rw [if_neg h]
      symm
      rw [nextLive_eq_none_iff]
      intro k hk1 hk2
      exact absurd hk2 (by omega)
  · intro i hi _
    rw [hP i]
    by_cases h0 : i = 0
    · rw [if_pos (Or.inl h0)]
      symm
      rw [prevLive_eq_none_iff]
      intro k hk1 hk2
      exact absurd hk1 (by omega)
    · rw [if_neg (by omega : ¬(i = 0 ∨ n ≤ i))]
      symm
      apply prevLive_eq_some n _ i (i - 1) (by omega) (hlive _ (by omega)) (by omega)
      intro k hk1 hk2
      exact absurd hk2 (by omega)
  · have hall : liveIdx n (vwInit pts n false).areas = List.range n := by
      rw [liveIdx, List.filter_eq_self]
      intro a ha
      exact hlive a (List.mem_range.mp ha)
    rw [hR, hall, List.length_range]

/-- Whatever the configuration, every iterate of the reduction loop
satisfies the open-path invariant when the input state does. -/
theorem vwLoopGo_inv (pts : Array Pt) (n : ℕ) (tp : Option ℤ) (tol : ℚ) :
    ∀ fuel st, VWInv n st → VWInv n (vwLoopGo pts n tp tol fuel st) := by
  intro fuel
  induction fuel with
  | zero => intro st h; exact h
  | succ fuel ih =>
    intro st h
    simp only [vwLoopGo]
    split
    · split
      · exact h
      · split
        · exact h
        · rename_i minIdx hmi
          split
          · exact h
          · rename_i hne
            push_neg at hne
            split
            · rename_i pPrev pNext hp hnx
              rcases vwFindMinGo_cases st.areas n 0 ⊤ none
                  with hcse | ⟨mw, _, hm2, hm3, hm4, _⟩
              · exfalso
                have h2 : (vwFindMin st.areas n).2 = none := by
                  rw [vwFindMin, hcse]
                rw [h2] at hmi
                exact Option.noConfusion hmi
              · have h2 : (vwFindMin st.areas n).2 = some mw := by
                  rw [vwFindMin]
                  exact hm4
                rw [h2] at hmi
                injection hmi with he
                apply ih
                refine vwRemove_inv pts n st h minIdx pPrev pNext hne.1 hne.2
                  (by omega) ?_ hp hnx
                rw [← he, hm3]
                rfl
            · exact h
            · exact h
    · exact h

/-- A state with at least four live nodes has a live node that is neither
endpoint. -/
theorem exists_interior_live (n : ℕ) (areas : ℕ → Option (WithTop ℚ))
    (h : 4 ≤ (liveIdx n areas).length) :
    ∃ i, i < n ∧ (areas i).isSome = true ∧ i ≠ 0 ∧ i ≠ n - 1 := by
  by_contra hc
  push_neg at hc
  have hsub : liveIdx n areas ⊆ [0, n - 1] := by
    intro x hx
    rw [liveIdx, List.mem_filter, List.mem_range] at hx
    rcases eq_or_ne x 0 with rfl | hx0
    · simp
    · have := hc x hx.1 hx.2 hx0
      simp [this]
  have hnd : (liveIdx n areas).Nodup := List.Nodup.filter _ (List.nodup_range n)
  have hle := (List.subperm_of_subset hnd hsub).length_le
  simp at hle
  omega

/-- With `targetPoints = k` (for `3 ≤ k`), the reduction loop runs the
removal until exactly `k` nodes remain: no break fires earlier, because the
tolerance break requires `targetPoints === null`, the scan always finds an
interior finite minimum while more than `k ≥ 3` nodes are live, and the
invariant links always supply the two neighbors. -/
theorem vwLoopGo_target (pts : Array Pt) (n : ℕ) (k : ℕ) (tol : ℚ)
    (hk3 : 3 ≤ k) :
    ∀ fuel st, VWInv n st → k ≤ st.remaining → st.remaining ≤ fuel + k →
      (vwLoopGo pts n (some (k : ℤ)) tol fuel st).remaining = k := by
  intro fuel
  induction fuel with
  | zero =>
    intro st hinv hk1 hk2
    have h : st.remaining = k := by omega
    simp only [vwLoopGo]
    exact h
  | succ fuel ih =>
    intro st hinv hk1 hk2
    by_cases hrem : st.remaining = k
    · have hnc : ¬ vwCond (some (k : ℤ)) st.remaining := by
        rw [hrem, vwCond]
        rintro ⟨-, h2 | h2⟩
        · exact Option.noConfusion h2
        · exact absurd (h2 (k : ℤ) (Option.mem_def.mpr rfl)) (lt_irrefl _)
      simp only [vwLoopGo]
      rw [if_neg hnc]
      exact hrem
    · have hrem' : k < st.remaining := by omega
      have hc : vwCond (some (k : ℤ)) st.remaining := by
        rw [vwCond]
        refine ⟨by omega, Or.inr ?_⟩
        intro x hx
        rw [Option.mem_def] at hx
        injection hx with hx'
        rw [← hx']
        exact_mod_cast hrem'
      have hlen : 4 ≤ (liveIdx n st.areas).length := by
        rw [← hinv.remEq]
        omega
      have hn4 : 4 ≤ n :=
        le_trans hlen (le_trans (List.length_filter_le _ _)
          (le_of_eq (List.length_range n)))
      obtain ⟨iw, hiwn, hiwlive, hiw0, hiwL⟩ :=
        exists_interior_live n st.areas hlen
      obtain ⟨q, hq⟩ := hinv.areaFin iw (by omega) (by omega) hiwlive
      obtain ⟨mi, hmin, hmiarea, hmi2⟩ :=
        vwFindMin_spec st.areas n iw (q : WithTop ℚ) hiwn hq (WithTop.coe_lt_top q)
      have hminle : (vwFindMin st.areas n).1 ≤ (q : WithTop ℚ) :=
        vwFindMin_le st.areas n iw _ hiwn hq
      have hfin : (vwFindMin st.areas n).1 < ⊤ :=
        lt_of_le_of_lt hminle (WithTop.coe_lt_top q)
      have hmi0 : mi ≠ 0 := by
        intro h0
        rw [h0, hinv.area0] at hmiarea
        injection hmiarea with h'
        rw [← h'] at hfin
        exact absurd hfin (lt_irrefl ⊤)
      have hmiL : mi ≠ n - 1 := by
        intro h0
        rw [h0, hinv.areaLast] at hmiarea
        injection hmiarea with h'
        rw [← h'] at hfin
        exact absurd hfin (lt_irrefl ⊤)
      have hmilive : (st.areas mi).isSome = true := by
        rw [hmiarea]
        rfl
      have hnmi := hinv.nextEq mi hmin hmilive
      have hpmi := hinv.prevEq mi hmin hmilive
      have hnlmi : nextLive n st.areas mi ≠ none := by
        intro hnone
        have hd := (nextLive_eq_none_iff n st.areas mi).mp hnone (n - 1)
          (by omega) (by omega)
        rw [hinv.areaLast] at hd
        exact absurd hd (by simp)
      have hplmi : prevLive n st.areas mi ≠ none := by
        intro hnone
        have hd := (prevLive_eq_none_iff n st.areas mi).mp hnone 0
          (by omega) (by omega)
        rw [hinv.area0] at hd
        exact absurd hd (by simp)
      simp only [vwLoopGo]
      rw [if_pos hc, if_neg (fun hh => Option.noConfusion hh.2)]
      split
      · rename_i heq
        rw [hmi2] at heq
        exact Option.noConfusion heq
      · rename_i minIdx heq
        rw [hmi2] at heq
        injection heq with he
        rw [if_neg (by omega : ¬(minIdx = 0 ∨ minIdx = n - 1))]
        split
        · rename_i pPrev pNext hp hnx
          have hinv' : VWInv n (vwRemove pts n st minIdx pPrev pNext) :=
            vwRemove_inv pts n st hinv minIdx pPrev pNext (by omega) (by omega)
              (by omega) (by rw [← he]; exact hmilive) hp hnx
          rw [ih (vwRemove pts n st minIdx pPrev pNext) hinv'
            (by rw [vwRemove_remaining]; omega)
            (by rw [vwRemove_remaining]; omega)]
        · rename_i hp hnx
          rw [← he, hnmi] at hnx
          exact absurd hnx hnlmi
        · rename_i hp
          rw [← he, hpmi] at hp
          exact absurd hp hplmi

/-! ## The output walk of `simplifyVisvalingam` -/

theorem vwWalk_succ_none (pts : Array Pt) (next : ℕ → Option ℕ) (fuel c : ℕ)
    (h : next c = none) :
    vwWalk pts next (fuel + 1) c = [pts.getD c (0, 0)] := by
  simp only [vwWalk, h]

theorem vwWalk_succ_some (pts : Array Pt) (next : ℕ → Option ℕ) (fuel c c' : ℕ)
    (h : next c = some c') (h0 : c' ≠ 0) :
    vwWalk pts next (fuel + 1) c = pts.getD c (0, 0) :: vwWalk pts next fuel c' := by
  simp only [vwWalk, h]
  rw [if_neg h0]

theorem liveFrom_cons (n : ℕ) (areas : ℕ → Option (WithTop ℚ)) (c : ℕ)
    (hc : c < n) (hlive : (areas c).isSome = true) :
    liveFrom n areas c = c :: liveFrom n areas (c + 1) := by
  rw [liveFrom, liveFrom]
  have h := List.range'_append_1 0 c (n - c)
  rw [Nat.zero_add] at h
  rw [show n - c + c = n from by omega] at h
  rw [List.range_eq_range', ← h, List.filter_append, List.filter_append]
  have h1 : (List.range' 0 c).filter
      (fun i => (areas i).isSome && decide (c ≤ i)) = [] := by
    rw [List.filter_eq_nil_iff]
    intro a ha
    have := List.mem_range'_1.mp ha
    simp [show ¬ c ≤ a from by omega]
  have h2 : (List.range' 0 c).filter
      (fun i => (areas i).isSome && decide (c + 1 ≤ i)) = [] := by
    rw [List.filter_eq_nil_iff]
    intro a ha
    have := List.mem_range'_1.mp ha
    simp [show ¬ c + 1 ≤ a from by omega]
  rw [h1, h2, List.nil_append, List.nil_append]
  have hstep : List.range' c (n - c) = c :: List.range' (c + 1) (n - c - 1) := by
    rw [show n - c = (n - c - 1) + 1 from by omega, List.range'_succ]
    rfl
  rw [hstep, List.filter_cons_of_pos (by simp [hlive]),
    List.filter_cons_of_neg (by simp)]
  congr 1
  apply List.filter_congr
  intro x hx
  have := List.mem_range'_1.mp hx
  simp [show c ≤ x from by omega, show c + 1 ≤ x from by omega]

theorem liveFrom_eq_nil (n : ℕ) (areas : ℕ → Option (WithTop ℚ)) (c : ℕ)
    (hdead : ∀ k, c < k → k < n → (areas k).isSome = false) :
    liveFrom n areas (c + 1) = [] := by
  rw [liveFrom, List.filter_eq_nil_iff]
  intro a ha
  rw [List.mem_range] at ha
  by_cases h : c + 1 ≤ a
  · rw [hdead a (by omega) ha]
    simp
  · simp [h]

theorem liveFrom_gap (n : ℕ) (areas : ℕ → Option (WithTop ℚ)) (c c' : ℕ)
    (h : nextLive n areas c = some c') :
    liveFrom n areas (c + 1) = liveFrom n areas c' := by
  obtain ⟨hc'n, hlive, hcc, hbet⟩ := of_nextLive_eq_some n areas c c' h
  rw [liveFrom, liveFrom]
  apply List.filter_congr
  intro x hx
  rw [List.mem_range] at hx
  by_cases h1 : c' ≤ x
  · simp [h1, show c + 1 ≤ x from by omega]
  · by_cases h2 : c + 1 ≤ x
    · rw [hbet x (by omega) (by omega)]
      simp
    · simp [h1, h2]

theorem liveFrom_zero (n : ℕ) (areas : ℕ → Option (WithTop ℚ)) :
    liveFrom n areas 0 = liveIdx n areas := by
  rw [liveFrom, liveIdx]
  apply List.filter_congr
  intro x hx
  simp

/-- On a state satisfying the invariant, the output walk started at a live
node `c` with enough fuel visits exactly the live nodes from `c` on, in
ascending index order. -/
theorem vwWalk_spec (pts : Array Pt) (n : ℕ) (st : VWState) (hinv : VWInv n st) :
    ∀ fuel c, c < n → (st.areas c).isSome = true →
      (liveFrom n st.areas c).length ≤ fuel →
      vwWalk pts st.next fuel c
        = (liveFrom n st.areas c).map (fun i => pts.getD i (0, 0)) := by
  intro fuel
  induction fuel with
  | zero =>
    intro c hc hlive hlen
    exfalso
    have hmem : c ∈ liveFrom n st.areas c := by
      rw [liveFrom, List.mem_filter, List.mem_range]
      exact ⟨hc, by simp [hlive]⟩
    have := List.length_pos_of_mem hmem
    omega
  | succ fuel ih =>
    intro c hc hlive hlen
    have hnx := hinv.nextEq c hc hlive
    rcases hn : nextLive n st.areas c with _ | c'
    · rw [hn] at hnx
      rw [vwWalk_succ_none pts st.next fuel c hnx,
        liveFrom_cons n st.areas c hc hlive,
        liveFrom_eq_nil n st.areas c ((nextLive_eq_none_iff n st.areas c).mp hn)]
      rfl
    · rw [hn] at hnx
      obtain ⟨hc'n, hc'live, hcc', hbet⟩ := of_nextLive_eq_some n st.areas c c' hn
      rw [vwWalk_succ_some pts st.next fuel c c' hnx (by omega),
        liveFrom_cons n st.areas c hc hlive, List.map_cons,
        liveFrom_gap n st.areas c c' hn]
      congr 1
      apply ih c' hc'n hc'live
      have hcons := liveFrom_cons n st.areas c hc hlive
      rw [liveFrom_gap n st.areas c c' hn] at hcons
      have hlen2 := congrArg List.length hcons
      simp only [List.length_cons] at hlen2
      omega

theorem liveIdx_head (n : ℕ) (areas : ℕ → Option (WithTop ℚ))
    (h0 : (areas 0).isSome = true) (hn : 0 < n) :
    (liveIdx n areas).head? = some 0 :=
  head?_filter_range_eq_some n _ 0 hn h0 (fun k hk => absurd hk (Nat.not_lt_zero k))

theorem liveIdx_getLast (n : ℕ) (areas : ℕ → Option (WithTop ℚ))
    (hL : (areas (n - 1)).isSome = true) (hn : 0 < n) :
    (liveIdx n areas).getLast? = some (n - 1) :=
  getLast?_filter_range_eq_some n _ (n - 1) (by omega) hL
    (fun k hk1 hk2 => absurd hk1 (by omega))

theorem vwInit_remaining (pts : Array Pt) (n : ℕ) (closed : Bool) :
    (vwInit pts n closed).remaining = n := by
  simp only [vwInit]
  split_ifs <;> rfl

/-- For an open call on `n ≥ 3` points, `simplifyVisvalingam` is the output
walk from node `0` over the loop's final state (the closing duplicate is
only appended when `closed`). -/
theorem simplifyVisvalingam_open (pts : Array Pt) (tp : Option ℤ) (tol : ℚ)
    (h3 : 3 ≤ pts.size) :
    simplifyVisvalingam pts tp tol false
      = vwWalk pts (vwLoop pts pts.size tp tol (vwInit pts pts.size false)).next
          pts.size 0 := by
  simp only [simplifyVisvalingam]
  rw [if_neg (by omega), if_neg (not_and_of_not_left _ (by simp))]

theorem liveIdx_length_le (n : ℕ) (areas : ℕ → Option (WithTop ℚ)) :
    (liveIdx n areas).length ≤ n := by
  rw [liveIdx]
  exact le_trans (List.length_filter_le _ _) (le_of_eq (List.length_range n))

/-- C3: on an open polyline of at least 3 points, both engines preserve the
endpoints — Douglas-Peucker pushes the first point and (re-)establishes the
last one unconditionally, and the Visvalingam reduction loop never retires
node `0` or node `n-1` (their areas stay `Infinity`), so the output walk
starts at point `0` and ends at point `n-1`.  Stated for `0 ≤ tolerance`
because the Douglas-Peucker recursion of the source does not terminate on a
negative tolerance. -/
theorem c3_endpoint_preservation (pts : Array Pt) (h3 : 3 ≤ pts.size)
    (tol : ℚ) (htol : 0 ≤ tol) (hq : Bool) (tp : Option ℤ) :
    ((simplifyDouglasPeucker pts tol hq).head? = some (pts.getD 0 (0, 0)) ∧
      (simplifyDouglasPeucker pts tol hq).getLast?
        = some (pts.getD (pts.size - 1) (0, 0))) ∧
    ((simplifyVisvalingam pts tp tol false).head? = some (pts.getD 0 (0, 0)) ∧
      (simplifyVisvalingam pts tp tol false).getLast?
        = some (pts.getD (pts.size - 1) (0, 0))) := by
  have hinv1 : VWInv pts.size
      (vwLoop pts pts.size tp tol (vwInit pts pts.size false)) := by
    rw [vwLoop]
    exact vwLoopGo_inv pts pts.size tp tol _ _ (vwInit_inv pts pts.size h3)
  have h0live : ((vwLoop pts pts.size tp tol
      (vwInit pts pts.size false)).areas 0).isSome = true := by
    rw [hinv1.area0]
    rfl
  have hLlive : ((vwLoop pts pts.size tp tol
      (vwInit pts pts.size false)).areas (pts.size - 1)).isSome = true := by
    rw [hinv1.areaLast]
    rfl
  have hwalk := vwWalk_spec pts pts.size _ hinv1 pts.size 0 (by omega) h0live
    (by rw [liveFrom_zero]; exact liveIdx_length_le pts.size _)
  refine ⟨⟨simplifyDouglasPeucker_head pts tol hq (by omega),
    simplifyDouglasPeucker_last pts tol hq (by omega)⟩, ?_, ?_⟩
  · rw [simplifyVisvalingam_open pts tp tol h3, hwalk, liveFrom_zero,
      List.head?_map, liveIdx_head pts.size _ h0live (by omega)]
    rfl
  · rw [simplifyVisvalingam_open pts tp tol h3, hwalk, liveFrom_zero,
      List.getLast?_map, liveIdx_getLast pts.size _ hLlive (by omega)]
    rfl

theorem c3_witness :
    3 ≤ c7Collinear.size ∧ (0 : ℚ) ≤ 0 ∧
      (((simplifyDouglasPeucker c7Collinear 0 false).head?
          = some (c7Collinear.getD 0 (0, 0)) ∧
        (simplifyDouglasPeucker c7Collinear 0 false).getLast?
          = some (c7Collinear.getD (c7Collinear.size - 1) (0, 0))) ∧
       ((simplifyVisvalingam c7Collinear none 0 false).head?
          = some (c7Collinear.getD 0 (0, 0)) ∧
        (simplifyVisvalingam c7Collinear none 0 false).getLast?
          = some (c7Collinear.getD (c7Collinear.size - 1) (0, 0)))) :=
  ⟨by decide, le_refl 0,
    c3_endpoint_preservation c7Collinear (by decide) 0 (le_refl 0) false none⟩

/-- C4: with `targetPoints = k` and `3 ≤ k ≤ n` on an open call, the
Visvalingam engine outputs exactly `k` points: the loop condition
`remaining > 3 && remaining > targetPoints` keeps removing (the scan always
finds an interior finite minimum and the links always supply the neighbors)
until exactly `k` nodes remain, and the output walk emits one point per
live node. -/
theorem c4_target_count (pts : Array Pt) (k : ℕ) (hk3 : 3 ≤ k)
    (hkn : k ≤ pts.size) (tol : ℚ) :
    (simplifyVisvalingam pts (some (k : ℤ)) tol false).length = k := by
  have h3 : 3 ≤ pts.size := le_trans hk3 hkn
  have hinv0 := vwInit_inv pts pts.size h3
  have hinv1 : VWInv pts.size
      (vwLoop pts pts.size (some (k : ℤ)) tol (vwInit pts pts.size false)) := by
    rw [vwLoop]
    exact vwLoopGo_inv pts pts.size _ tol _ _ hinv0
  have hrem1 : (vwLoop pts pts.size (some (k : ℤ)) tol
      (vwInit pts pts.size false)).remaining = k := by
    rw [vwLoop]
    exact vwLoopGo_target pts pts.size k tol hk3 _ _ hinv0
      (by rw [vwInit_remaining]; exact hkn) (by rw [vwInit_remaining]; omega)
  have h0live : ((vwLoop pts pts.size (some (k : ℤ)) tol
      (vwInit pts pts.size false)).areas 0).isSome = true := by
    rw [hinv1.area0]
    rfl
  rw [simplifyVisvalingam_open pts _ tol h3,
    vwWalk_spec pts pts.size _ hinv1 pts.size 0 (by omega) h0live
      (by rw [liveFrom_zero]; exact liveIdx_length_le pts.size _),
    List.length_map, liveFrom_zero, ← hinv1.remEq]
  exact hrem1

theorem c4_witness :
    3 ≤ 3 ∧ 3 ≤ c7Collinear.size ∧
      (simplifyVisvalingam c7Collinear (some ((3 : ℕ) : ℤ)) 0 false).length = 3 :=
  ⟨le_refl 3, by decide, c4_target_count c7Collinear 3 (le_refl 3) (by decide) 0⟩
